import Mathlib

/-!
Verification of the 2-d k-d tree implementation in `kdtree.js`.

The JavaScript source is shallowly embedded: JS numbers are modelled as
rationals (ℚ), JS arrays as lists, `null` children as an explicit `nil`
tree constructor, and a thrown `TypeError` (reading a property of
`null`/`undefined`) as `Option.none` in functions that can crash.
Mutation of the `results` / `opt_consideredPoints` arrays is modelled by
explicit state passing.
-/

namespace KD

/-- A 2-d point, mirroring the JS record `{x:?, y:?}`. -/
structure Point where
  x : ℚ
  y : ℚ
deriving DecidableEq, Repr

/-- An axis-aligned rectangle, mirroring the JS record
`{minX:?, maxX:?, minY:?, maxY:?}`. -/
structure Rect where
  minX : ℚ
  maxX : ℚ
  minY : ℚ
  maxY : ℚ
deriving DecidableEq, Repr

/-- Constant `AXIS_X` from the source. -/
def AXIS_X : Nat := 0

/-- Constant `AXIS_Y` from the source. -/
def AXIS_Y : Nat := 1

/-- Constant `K` (the dimension, 2) from the source. -/
def K : Nat := 2

/-- The k-d tree node graph.  `nil` models the JS `null` child reference;
`node` carries the node point, the stored `boundingRect`, and the two
child references. -/
inductive Tree where
  | nil : Tree
  | node (point : Point) (boundingRect : Rect) (leftChild rightChild : Tree) : Tree
deriving DecidableEq, Repr

/-- Coordinate of a point on the given axis (`a.x` or `a.y`, as in the
sort comparator of `createKDTree_`). -/
def axisCoord (axis : Nat) (p : Point) : ℚ :=
  if axis = AXIS_X then p.x else p.y

/-- The comparator order used by `points.sort(...)` in `createKDTree_`:
ascending coordinate on the splitting axis. -/
def axisLe (axis : Nat) (a b : Point) : Prop :=
  axisCoord axis a ≤ axisCoord axis b

instance (axis : Nat) : DecidableRel (axisLe axis) := fun a b =>
  inferInstanceAs (Decidable (axisCoord axis a ≤ axisCoord axis b))

instance (axis : Nat) : IsTotal Point (axisLe axis) :=
  ⟨fun a b => le_total (axisCoord axis a) (axisCoord axis b)⟩

instance (axis : Nat) : IsTrans Point (axisLe axis) :=
  ⟨fun _ _ _ hab hbc => le_trans hab hbc⟩

/-- The in-place `points.sort(comparator)` call of `createKDTree_`,
modelled as a stable sort by the axis coordinate (ECMAScript sort is
stable, and any stable sort w.r.t. the same total preorder produces the
same list). -/
def sortAxis (axis : Nat) (points : List Point) : List Point :=
  points.insertionSort (axisLe axis)

/-- `getSquaredEuclidianDistance` from the source. -/
def getSquaredEuclidianDistance (x1 y1 x2 y2 : ℚ) : ℚ :=
  let dx := x1 - x2
  let dy := y1 - y2
  dx * dx + dy * dy

/-- Squared distance between two points (helper abbreviation for
`getSquaredEuclidianDistance` applied to the coordinates). -/
def sqDistQ (q p : Point) : ℚ :=
  getSquaredEuclidianDistance q.x q.y p.x p.y

/-- Left child bounding rectangle computed in `createKDTree_`
(lines 70–75 of the source). -/
def leftChildBoundingRect (axis : Nat) (nodePoint : Point) (boundingRect : Rect) : Rect :=
  { minX := boundingRect.minX
    maxX := if axis = AXIS_X then nodePoint.x else boundingRect.maxX
    minY := boundingRect.minY
    maxY := if axis = AXIS_Y then nodePoint.y else boundingRect.maxY }

/-- Right child bounding rectangle computed in `createKDTree_`
(lines 77–82 of the source). -/
def rightChildBoundingRect (axis : Nat) (nodePoint : Point) (boundingRect : Rect) : Rect :=
  { minX := if axis = AXIS_X then nodePoint.x else boundingRect.minX
    maxX := boundingRect.maxX
    minY := if axis = AXIS_Y then nodePoint.y else boundingRect.minY
    maxY := boundingRect.maxY }

/-- Recursive tree construction `createKDTree_`, made structurally
recursive on a fuel argument (the recursion of the source decreases the
list length, so `fuel = points.length` always suffices; `createKDTree`
below instantiates the fuel that way).  The body for a non-empty list is
a direct transcription of lines 48–90 of the source. -/
def createKDTreeFuel : Nat → List Point → Nat → Rect → Tree
  | _, [], _, _ => Tree.nil
  | 0, _ :: _, _, _ => Tree.nil
  | fuel + 1, p0 :: ps, depth, boundingRect =>
    let points := p0 :: ps
    let axis := depth % K
    let sorted := sortAxis axis points
    let medianIndex := sorted.length / 2
    let nodePoint := sorted.getD medianIndex p0
    let lRect := leftChildBoundingRect axis nodePoint boundingRect
    let rRect := rightChildBoundingRect axis nodePoint boundingRect
    Tree.node nodePoint boundingRect
      (createKDTreeFuel fuel (sorted.take medianIndex) (depth + 1) lRect)
      (createKDTreeFuel fuel (sorted.drop (medianIndex + 1)) (depth + 1) rRect)

/-- `createKDTree_` from the source. -/
def createKDTree (points : List Point) (depth : Nat) (boundingRect : Rect) : Tree :=
  createKDTreeFuel points.length points depth boundingRect

/-- The bounding-rectangle computation in the `KDTree` constructor
(lines 24–36): starts from the sentinel values `-2^31` / `2^31 - 1` and
folds `min`/`max` over the input points. -/
def buildBoundingRect (points : List Point) : Rect :=
  points.foldl
    (fun r p =>
      { minX := min r.minX p.x
        minY := min r.minY p.y
        maxX := max r.maxX p.x
        maxY := max r.maxY p.y })
    { maxX := -(2 ^ 31), minX := 2 ^ 31 - 1, maxY := -(2 ^ 31), minY := 2 ^ 31 - 1 }

namespace KDTree

/-- The `KDTree` constructor: computes the sentinel-initialised bounding
rectangle of the input and builds the node graph; the result is the
`rootNode` field. -/
def build (points : List Point) : Tree :=
  createKDTree points 0 (buildBoundingRect points)

end KDTree

/-- State of the caller's `points` array after `new KDTree(points)`
returns.  `createKDTree_` calls `points.sort(...)` in place on the array
it is given; at recursion depth 0 that array is the caller's own array
(deeper recursive calls receive fresh `slice` copies).  An empty array is
returned from `createKDTree_` before the sort runs and is left untouched. -/
def callerArrayAfterBuild (points : List Point) : List Point :=
  match points with
  | [] => points
  | _ :: _ => sortAxis (0 % K) points

/-- A search-result entry: the JS code stores `{node:?, distance:?}`;
only `node.point` and `distance` are ever read from an entry, so the
entry is modelled as the point together with the recorded squared
distance. -/
structure Entry where
  point : Point
  distance : ℚ
deriving DecidableEq, Repr

/-- The backward scan of `insertResult_` (lines 202–208): returns
`insertIndex + 1`, i.e. one past the last index whose entry has distance
strictly below the inserted distance (`0` if there is none). -/
def insertLoop (results : List Entry) (d : ℚ) : Nat :=
  match results with
  | [] => 0
  | x :: xs =>
    let p := insertLoop xs d
    if p = 0 then (if x.distance < d then 1 else 0) else p + 1

/-- `insertResult_` from the source: splice the new entry in at the
position found by the backward scan, then `pop` the last entry if the
list has grown beyond `maxResults`. -/
def insertResult (results : List Entry) (insertNode : Entry) (maxResults : Nat) : List Entry :=
  let spliced := results.insertIdx (insertLoop results insertNode.distance) insertNode
  if maxResults < spliced.length then spliced.dropLast else spliced

/-- The pruning bound of `getNearestNeighbours_` (lines 165–184): the
squared distance from the search point to `(toX, toY)`, the nearest
point on the perimeter of the opposite child's bounding rectangle. -/
def oppositeBoundSq (searchCoord : Point) (axis : Nat) (currPoint : Point) (oppRect : Rect) : ℚ :=
  if axis = AXIS_X then
    let toX := currPoint.x
    let toY :=
      if searchCoord.y < oppRect.minY then oppRect.minY
      else if searchCoord.y > oppRect.maxY then oppRect.maxY
      else searchCoord.y
    getSquaredEuclidianDistance searchCoord.x searchCoord.y toX toY
  else
    let toY := currPoint.y
    let toX :=
      if searchCoord.x < oppRect.minX then oppRect.minX
      else if searchCoord.x > oppRect.maxX then oppRect.maxX
      else searchCoord.x
    getSquaredEuclidianDistance searchCoord.x searchCoord.y toX toY

/-- `KDTree.prototype.getNearestNeighbours_`, the recursive search.
Returns the final `(results, consideredPoints)` state, or `none` when
the JS code would throw a `TypeError`: either `currNode` is `null`
(top-level call on an empty tree dereferences `currNode.point`), or
`results` is empty at the opposite-child check (lines 185 reads
`results[results.length - 1].distance`, and `results[-1]` is
`undefined`).  The two branches on `searchLeft` inline the JS
`targetChild`/`oppositeChild` selection so that the recursion is
structural. -/
def getNearestNeighboursAux :
    Tree → Point → Nat → List Entry → Nat → List Point → Option (List Entry × List Point)
  | Tree.nil, _, _, _, _, _ => none
  | Tree.node point _ l r, searchCoord, depth, results, maxResults, considered =>
    let considered1 := considered ++ [point]
    let axis := depth % K
    let currNodeDistance :=
      getSquaredEuclidianDistance searchCoord.x searchCoord.y point.x point.y
    let results1 := insertResult results ⟨point, currNodeDistance⟩ maxResults
    let searchSplit := if axis = AXIS_X then searchCoord.x else searchCoord.y
    let currSplit := if axis = AXIS_X then point.x else point.y
    if searchSplit < currSplit then
      -- searchLeft: targetChild = leftChild, oppositeChild = rightChild
      match (match l with
             | Tree.nil => some (results1, considered1)
             | Tree.node _ _ _ _ =>
               getNearestNeighboursAux l searchCoord (depth + 1) results1 maxResults
                 considered1) with
      | none => none
      | some (results2, considered2) =>
        match r with
        | Tree.nil => some (results2, considered2)
        | Tree.node _ oppRect _ _ =>
          let squaredDist := oppositeBoundSq searchCoord axis point oppRect
          match results2.getLast? with
          | none => none
          | some worst =>
            if squaredDist ≤ worst.distance then
              getNearestNeighboursAux r searchCoord (depth + 1) results2 maxResults considered2
            else
              some (results2, considered2)
    else
      -- targetChild = rightChild, oppositeChild = leftChild
      match (match r with
             | Tree.nil => some (results1, considered1)
             | Tree.node _ _ _ _ =>
               getNearestNeighboursAux r searchCoord (depth + 1) results1 maxResults
                 considered1) with
      | none => none
      | some (results2, considered2) =>
        match l with
        | Tree.nil => some (results2, considered2)
        | Tree.node _ oppRect _ _ =>
          let squaredDist := oppositeBoundSq searchCoord axis point oppRect
          match results2.getLast? with
          | none => none
          | some worst =>
            if squaredDist ≤ worst.distance then
              getNearestNeighboursAux l searchCoord (depth + 1) results2 maxResults considered2
            else
              some (results2, considered2)

/-- `KDTree.prototype.getNearestNeighbour`: searches with
`maxResults = 1` and returns `results.length == 0 ? null :
results[0].node.point`.  The outer `Option` is the crash monad (`none` =
thrown `TypeError`), the inner `Option` is the JS `null`-or-point
return value. -/
def getNearestNeighbour (t : Tree) (searchCoord : Point) : Option (Option Point) :=
  match getNearestNeighboursAux t searchCoord 0 [] 1 [] with
  | none => none
  | some (results, _) => some (results.head?.map Entry.point)

/-- `KDTree.prototype.getNearestNeighbours`: runs the recursive search
and projects the entries to their points.  `none` = thrown `TypeError`. -/
def getNearestNeighbours (t : Tree) (searchCoord : Point) (maxResults : Nat) :
    Option (List Point) :=
  match getNearestNeighboursAux t searchCoord 0 [] maxResults [] with
  | none => none
  | some (results, _) => some (results.map Entry.point)

/-- Modelled from the spec (§4.2 step 4): the same recursive search, but
recursing into the far child when "this lower bound is ≤ the current
worst (largest) distance held in the result set, OR the result set is
not yet full (size < k)".  Everything else is identical to
`getNearestNeighboursAux`; this definition exists only to be compared
with the code's behaviour. -/
def getNearestNeighboursSpecAux :
    Tree → Point → Nat → List Entry → Nat → List Point → Option (List Entry × List Point)
  | Tree.nil, _, _, _, _, _ => none
  | Tree.node point _ l r, searchCoord, depth, results, maxResults, considered =>
    let considered1 := considered ++ [point]
    let axis := depth % K
    let currNodeDistance :=
      getSquaredEuclidianDistance searchCoord.x searchCoord.y point.x point.y
    let results1 := insertResult results ⟨point, currNodeDistance⟩ maxResults
    let searchSplit := if axis = AXIS_X then searchCoord.x else searchCoord.y
    let currSplit := if axis = AXIS_X then point.x else point.y
    if searchSplit < currSplit then
      match (match l with
             | Tree.nil => some (results1, considered1)
             | Tree.node _ _ _ _ =>
               getNearestNeighboursSpecAux l searchCoord (depth + 1) results1 maxResults
                 considered1) with
      | none => none
      | some (results2, considered2) =>
        match r with
        | Tree.nil => some (results2, considered2)
        | Tree.node _ oppRect _ _ =>
          let squaredDist := oppositeBoundSq searchCoord axis point oppRect
          if results2.length < maxResults then
            getNearestNeighboursSpecAux r searchCoord (depth + 1) results2 maxResults considered2
          else
            match results2.getLast? with
            | none => some (results2, considered2)
            | some worst =>
              if squaredDist ≤ worst.distance then
                getNearestNeighboursSpecAux r searchCoord (depth + 1) results2 maxResults
                  considered2
              else
                some (results2, considered2)
    else
      match (match r with
             | Tree.nil => some (results1, considered1)
             | Tree.node _ _ _ _ =>
               getNearestNeighboursSpecAux r searchCoord (depth + 1) results1 maxResults
                 considered1) with
      | none => none
      | some (results2, considered2) =>
        match l with
        | Tree.nil => some (results2, considered2)
        | Tree.node _ oppRect _ _ =>
          let squaredDist := oppositeBoundSq searchCoord axis point oppRect
          if results2.length < maxResults then
            getNearestNeighboursSpecAux l searchCoord (depth + 1) results2 maxResults considered2
          else
            match results2.getLast? with
            | none => some (results2, considered2)
            | some worst =>
              if squaredDist ≤ worst.distance then
                getNearestNeighboursSpecAux l searchCoord (depth + 1) results2 maxResults
                  considered2
              else
                some (results2, considered2)

/-- Ordering of points by squared distance to a query point. -/
def distLe (q : Point) (a b : Point) : Prop :=
  sqDistQ q a ≤ sqDistQ q b

instance (q : Point) : DecidableRel (distLe q) := fun a b =>
  inferInstanceAs (Decidable (sqDistQ q a ≤ sqDistQ q b))

instance (q : Point) : IsTotal Point (distLe q) :=
  ⟨fun a b => le_total (sqDistQ q a) (sqDistQ q b)⟩

instance (q : Point) : IsTrans Point (distLe q) :=
  ⟨fun _ _ _ hab hbc => le_trans hab hbc⟩

/-- Modelled from the spec (§8 "Agreement with brute force"): a linear
scan selecting the k smallest distances — stable sort of the point list
by squared distance to the query, then take the first k. -/
def linearScanKNearest (q : Point) (k : Nat) (points : List Point) : List Point :=
  (points.insertionSort (distLe q)).take k

/-- Modelled from the spec (§4.2 insertion policy): "new entry goes
immediately after the first existing entry with distance ≤ new entry's
distance" (scanning from the worst entry backward), i.e. in front-to-back
form, before the first entry whose distance is strictly greater. -/
def insertEntrySpec (e : Entry) : List Entry → List Entry
  | [] => [e]
  | x :: xs => if x.distance ≤ e.distance then x :: insertEntrySpec e xs else e :: x :: xs

/-- Modelled from the spec (§4.2 insertion policy): insert at the spec's
position, then drop the last entry when the length exceeds k. -/
def specInsertResult (results : List Entry) (e : Entry) (maxResults : Nat) : List Entry :=
  let l := insertEntrySpec e results
  if maxResults < l.length then l.dropLast else l

/-- Sorted insertion placing the new entry before entries of equal
distance — the position actually used by `insertResult_` on a sorted
list (its backward scan stops at the first strictly smaller distance). -/
def insertEntry (e : Entry) : List Entry → List Entry
  | [] => [e]
  | x :: xs => if x.distance < e.distance then x :: insertEntry e xs else e :: x :: xs

/-- Number of nodes of a tree. -/
def Tree.size : Tree → Nat
  | Tree.nil => 0
  | Tree.node _ _ l r => l.size + r.size + 1

/-- The points stored in a tree (node point first, then left subtree,
then right subtree). -/
def Tree.pointList : Tree → List Point
  | Tree.nil => []
  | Tree.node p _ l r => p :: (l.pointList ++ r.pointList)

/-- The bounding rectangle stored at the root, if any. -/
def Tree.rootRect? : Tree → Option Rect
  | Tree.nil => none
  | Tree.node _ rect _ _ => some rect

/-- Membership of a point in a rectangle (all four bound comparisons). -/
def inRect (p : Point) (r : Rect) : Prop :=
  r.minX ≤ p.x ∧ p.x ≤ r.maxX ∧ r.minY ≤ p.y ∧ p.y ≤ r.maxY

instance (p : Point) (r : Rect) : Decidable (inRect p r) :=
  inferInstanceAs (Decidable (_ ∧ _ ∧ _ ∧ _))

/-- Well-formedness of a built tree relative to its depth and the
rectangle it was created with: the stored rectangle is that rectangle,
the node point lies inside it, and the children are well-formed w.r.t.
the clipped rectangles `createKDTree_` hands them. -/
def WF : Nat → Rect → Tree → Prop
  | _, _, Tree.nil => True
  | d, R, Tree.node p rect l r =>
    rect = R ∧ inRect p R ∧
    WF (d + 1) (leftChildBoundingRect (d % K) p R) l ∧
    WF (d + 1) (rightChildBoundingRect (d % K) p R) r

/-- Result lists are ordered by ascending recorded distance. -/
def SortedE (l : List Entry) : Prop :=
  List.Sorted (fun a b : Entry => a.distance ≤ b.distance) l

/-- All recorded distances agree with the squared distance from the
query to the recorded point. -/
def DistOK (q : Point) (l : List Entry) : Prop :=
  ∀ e ∈ l, e.distance = sqDistQ q e.point

/-- The entry multiset a subtree contributes to a search for query q. -/
def treeEntries (q : Point) (t : Tree) : Multiset Entry :=
  (t.pointList.map fun p => Entry.mk p (sqDistQ q p) : List Entry)

/-- Separation: every entry kept is no farther than every entry of the
pool that was left out (the pool is a multiset containing the output). -/
def sepM (out pool : Multiset Entry) : Prop :=
  ∀ e ∈ out, ∀ f ∈ pool - out, Entry.distance e ≤ Entry.distance f

/-- Rectangle containment: `outer` contains `inner` (all four bound
comparisons of the spec's containment invariant). -/
def rectContains (outer inner : Rect) : Prop :=
  outer.minX ≤ inner.minX ∧ inner.maxX ≤ outer.maxX ∧
  outer.minY ≤ inner.minY ∧ inner.maxY ≤ outer.maxY

/-- The spec's rectangle invariant at a given depth: each existing child
has a stored rectangle that is contained in the parent's stored
rectangle and equals the parent's rectangle clipped on the parent's
splitting axis at the parent point's coordinate. -/
def ChildRectOK : Nat → Tree → Prop
  | _, Tree.nil => True
  | d, Tree.node p rect l r =>
    (∀ pl Rl ll rl, l = Tree.node pl Rl ll rl →
      rectContains rect Rl ∧ Rl = leftChildBoundingRect (d % K) p rect) ∧
    (∀ pr Rr lr rr, r = Tree.node pr Rr lr rr →
      rectContains rect Rr ∧ Rr = rightChildBoundingRect (d % K) p rect) ∧
    ChildRectOK (d + 1) l ∧ ChildRectOK (d + 1) r

end KD

namespace KD

/-! ### Sorting helper facts -/

theorem sortAxis_perm (axis : Nat) (points : List Point) :
    (sortAxis axis points).Perm points :=
  List.perm_insertionSort _ _

theorem sortAxis_sorted (axis : Nat) (points : List Point) :
    List.Sorted (axisLe axis) (sortAxis axis points) :=
  List.sorted_insertionSort _ _

theorem sortAxis_length (axis : Nat) (points : List Point) :
    (sortAxis axis points).length = points.length :=
  (sortAxis_perm axis points).length_eq

theorem mem_sortAxis {axis : Nat} {points : List Point} {p : Point} :
    p ∈ sortAxis axis points ↔ p ∈ points :=
  (sortAxis_perm axis points).mem_iff

/-! ### Bounding-rectangle computation facts -/

theorem foldl_rect (ps : List Point) (r : Rect) :
    ps.foldl
      (fun r p =>
        { minX := min r.minX p.x
          minY := min r.minY p.y
          maxX := max r.maxX p.x
          maxY := max r.maxY p.y })
      r =
    { minX := ps.foldl (fun m p => min m p.x) r.minX
      minY := ps.foldl (fun m p => min m p.y) r.minY
      maxX := ps.foldl (fun m p => max m p.x) r.maxX
      maxY := ps.foldl (fun m p => max m p.y) r.maxY } := by
  induction ps generalizing r with
  | nil => rfl
  | cons p ps ih => exact ih _

theorem foldl_min_le_init (xs : List ℚ) (i : ℚ) : xs.foldl min i ≤ i := by
  induction xs generalizing i with
  | nil => exact le_refl _
  | cons y ys ih => exact le_trans (ih (min i y)) (min_le_left _ _)

theorem foldl_min_le_mem {xs : List ℚ} {x : ℚ} (hx : x ∈ xs) (i : ℚ) :
    xs.foldl min i ≤ x := by
  induction xs generalizing i with
  | nil => cases hx
  | cons y ys ih =>
    rcases List.mem_cons.mp hx with h | h
    · subst h
      exact le_trans (foldl_min_le_init ys (min i x)) (min_le_right _ _)
    · exact ih h _

theorem foldl_min_eq_init_or_mem (xs : List ℚ) (i : ℚ) :
    xs.foldl min i = i ∨ xs.foldl min i ∈ xs := by
  induction xs generalizing i with
  | nil => exact Or.inl rfl
  | cons y ys ih =>
    rcases ih (min i y) with h | h
    · rcases min_choice i y with h2 | h2
      · exact Or.inl (by rw [List.foldl_cons, h, h2])
      · exact Or.inr (by rw [List.foldl_cons, h, h2]; exact List.mem_cons_self _ _)
    · exact Or.inr (List.mem_cons_of_mem _ h)

theorem foldl_max_ge_init (xs : List ℚ) (i : ℚ) : i ≤ xs.foldl max i := by
  induction xs generalizing i with
  | nil => exact le_refl _
  | cons y ys ih => exact le_trans (le_max_left _ _) (ih (max i y))

theorem foldl_max_ge_mem {xs : List ℚ} {x : ℚ} (hx : x ∈ xs) (i : ℚ) :
    x ≤ xs.foldl max i := by
  induction xs generalizing i with
  | nil => cases hx
  | cons y ys ih =>
    rcases List.mem_cons.mp hx with h | h
    · subst h
      exact le_trans (le_max_right _ _) (foldl_max_ge_init ys (max i x))
    · exact ih h _

theorem foldl_max_eq_init_or_mem (xs : List ℚ) (i : ℚ) :
    xs.foldl max i = i ∨ xs.foldl max i ∈ xs := by
  induction xs generalizing i with
  | nil => exact Or.inl rfl
  | cons y ys ih =>
    rcases ih (max i y) with h | h
    · rcases max_choice i y with h2 | h2
      · exact Or.inl (by rw [List.foldl_cons, h, h2])
      · exact Or.inr (by rw [List.foldl_cons, h, h2]; exact List.mem_cons_self _ _)
    · exact Or.inr (List.mem_cons_of_mem _ h)

theorem buildBoundingRect_minX (points : List Point) :
    (buildBoundingRect points).minX = points.foldl (fun m p => min m p.x) (2 ^ 31 - 1) := by
  rw [buildBoundingRect, foldl_rect]

theorem buildBoundingRect_maxX (points : List Point) :
    (buildBoundingRect points).maxX = points.foldl (fun m p => max m p.x) (-(2 ^ 31)) := by
  rw [buildBoundingRect, foldl_rect]

theorem buildBoundingRect_minY (points : List Point) :
    (buildBoundingRect points).minY = points.foldl (fun m p => min m p.y) (2 ^ 31 - 1) := by
  rw [buildBoundingRect, foldl_rect]

theorem buildBoundingRect_maxY (points : List Point) :
    (buildBoundingRect points).maxY = points.foldl (fun m p => max m p.y) (-(2 ^ 31)) := by
  rw [buildBoundingRect, foldl_rect]

theorem foldl_min_proj_le_mem {points : List Point} {p : Point} (f : Point → ℚ)
    (hp : p ∈ points) (i : ℚ) : points.foldl (fun m q => min m (f q)) i ≤ f p := by
  have h := List.foldl_map f (fun m (v : ℚ) => min m v) points i
  exact h ▸ foldl_min_le_mem (List.mem_map_of_mem f hp) i

theorem foldl_max_proj_ge_mem {points : List Point} {p : Point} (f : Point → ℚ)
    (hp : p ∈ points) (i : ℚ) : f p ≤ points.foldl (fun m q => max m (f q)) i := by
  have h := List.foldl_map f (fun m (v : ℚ) => max m v) points i
  exact h ▸ foldl_max_ge_mem (List.mem_map_of_mem f hp) i

theorem foldl_min_proj_char {points : List Point} (f : Point → ℚ) (i : ℚ)
    (hbound : ∀ p ∈ points, f p ≤ i) (hne : points ≠ []) :
    points.foldl (fun m q => min m (f q)) i ∈ points.map f := by
  have h := List.foldl_map f (fun m (v : ℚ) => min m v) points i
  rw [← h]
  rcases foldl_min_eq_init_or_mem (points.map f) i with h2 | h2
  · rw [h2]
    rcases points with _ | ⟨p, ps⟩
    · exact absurd rfl hne
    · have h3 : (List.map f (p :: ps)).foldl min i ≤ f p :=
        foldl_min_le_mem (List.mem_map_of_mem f (List.mem_cons_self _ _)) i
      rw [h2] at h3
      have h4 := hbound p (List.mem_cons_self _ _)
      have : f p = i := le_antisymm h4 h3
      rw [← this]
      exact List.mem_map_of_mem f (List.mem_cons_self _ _)
  · exact h2

theorem foldl_max_proj_char {points : List Point} (f : Point → ℚ) (i : ℚ)
    (hbound : ∀ p ∈ points, i ≤ f p) (hne : points ≠ []) :
    points.foldl (fun m q => max m (f q)) i ∈ points.map f := by
  have h := List.foldl_map f (fun m (v : ℚ) => max m v) points i
  rw [← h]
  rcases foldl_max_eq_init_or_mem (points.map f) i with h2 | h2
  · rw [h2]
    rcases points with _ | ⟨p, ps⟩
    · exact absurd rfl hne
    · have h3 : f p ≤ (List.map f (p :: ps)).foldl max i :=
        foldl_max_ge_mem (List.mem_map_of_mem f (List.mem_cons_self _ _)) i
      rw [h2] at h3
      have h4 := hbound p (List.mem_cons_self _ _)
      have : f p = i := le_antisymm h3 h4
      rw [← this]
      exact List.mem_map_of_mem f (List.mem_cons_self _ _)
  · exact h2

/-- Despite the sentinel initial values, the constructor's rectangle
always contains every input point: the fold only widens the rectangle. -/
theorem mem_buildBoundingRect {points : List Point} {p : Point} (hp : p ∈ points) :
    inRect p (buildBoundingRect points) := by
  refine ⟨?_, ?_, ?_, ?_⟩
  · rw [buildBoundingRect_minX]
    exact foldl_min_proj_le_mem Point.x hp _
  · rw [buildBoundingRect_maxX]
    exact foldl_max_proj_ge_mem Point.x hp _
  · rw [buildBoundingRect_minY]
    exact foldl_min_proj_le_mem Point.y hp _
  · rw [buildBoundingRect_maxY]
    exact foldl_max_proj_ge_mem Point.y hp _

end KD

namespace KD

/-! ### Rectangle clipping facts -/

theorem inRect_leftChild {a : Nat} {x p : Point} {R : Rect} (hx : inRect x R)
    (hle : axisCoord a x ≤ axisCoord a p) : inRect x (leftChildBoundingRect a p R) := by
  obtain ⟨h1, h2, h3, h4⟩ := hx
  by_cases hax : a = AXIS_X
  · simp only [axisCoord, hax, if_pos rfl] at hle
    simp only [leftChildBoundingRect, inRect, hax, AXIS_X, AXIS_Y, if_pos rfl]
    norm_num
    exact ⟨h1, hle, h3, h4⟩
  · by_cases hay : a = AXIS_Y
    · simp only [axisCoord, hax, if_neg hax] at hle
      simp only [leftChildBoundingRect, inRect, if_neg hax, hay, if_pos rfl]
      exact ⟨h1, h2, h3, hle⟩
    · simp only [leftChildBoundingRect, inRect, if_neg hax, if_neg hay]
      exact ⟨h1, h2, h3, h4⟩

theorem inRect_rightChild {a : Nat} {x p : Point} {R : Rect} (hx : inRect x R)
    (hle : axisCoord a p ≤ axisCoord a x) : inRect x (rightChildBoundingRect a p R) := by
  obtain ⟨h1, h2, h3, h4⟩ := hx
  by_cases hax : a = AXIS_X
  · simp only [axisCoord, hax, if_pos rfl] at hle
    simp only [rightChildBoundingRect, inRect, hax, AXIS_X, AXIS_Y, if_pos rfl]
    norm_num
    exact ⟨hle, h2, h3, h4⟩
  · by_cases hay : a = AXIS_Y
    · simp only [axisCoord, hax, if_neg hax] at hle
      simp only [rightChildBoundingRect, inRect, if_neg hax, hay, if_pos rfl]
      exact ⟨h1, h2, hle, h4⟩
    · simp only [rightChildBoundingRect, inRect, if_neg hax, if_neg hay]
      exact ⟨h1, h2, h3, h4⟩

theorem inRect_of_leftChild {a : Nat} {x p : Point} {R : Rect} (hp : inRect p R)
    (hx : inRect x (leftChildBoundingRect a p R)) : inRect x R := by
  obtain ⟨hp1, hp2, hp3, hp4⟩ := hp
  obtain ⟨h1, h2, h3, h4⟩ := hx
  simp only [leftChildBoundingRect] at h1 h2 h3 h4
  refine ⟨h1, ?_, h3, ?_⟩
  · split at h2
    · exact le_trans h2 hp2
    · exact h2
  · split at h4
    · exact le_trans h4 hp4
    · exact h4

theorem inRect_of_rightChild {a : Nat} {x p : Point} {R : Rect} (hp : inRect p R)
    (hx : inRect x (rightChildBoundingRect a p R)) : inRect x R := by
  obtain ⟨hp1, hp2, hp3, hp4⟩ := hp
  obtain ⟨h1, h2, h3, h4⟩ := hx
  simp only [rightChildBoundingRect] at h1 h2 h3 h4
  refine ⟨?_, h2, ?_, h4⟩
  · split at h1
    · exact le_trans hp1 h1
    · exact h1
  · split at h3
    · exact le_trans hp3 h3
    · exact h3

theorem rectContains_leftChild {a : Nat} {p : Point} {R : Rect} (hp : inRect p R) :
    rectContains R (leftChildBoundingRect a p R) := by
  obtain ⟨hp1, hp2, hp3, hp4⟩ := hp
  refine ⟨le_refl _, ?_, le_refl _, ?_⟩ <;> simp only [leftChildBoundingRect]
  · split
    · exact hp2
    · exact le_refl _
  · split
    · exact hp4
    · exact le_refl _

theorem rectContains_rightChild {a : Nat} {p : Point} {R : Rect} (hp : inRect p R) :
    rectContains R (rightChildBoundingRect a p R) := by
  obtain ⟨hp1, hp2, hp3, hp4⟩ := hp
  refine ⟨?_, le_refl _, ?_, le_refl _⟩ <;> simp only [rightChildBoundingRect]
  · split
    · exact hp1
    · exact le_refl _
  · split
    · exact hp3
    · exact le_refl _

/-! ### Facts about the built tree -/

theorem pointList_length_eq_size (t : Tree) : t.pointList.length = t.size := by
  induction t with
  | nil => rfl
  | node p rect l r ihl ihr =>
    simp only [Tree.pointList, Tree.size, List.length_cons, List.length_append, ihl, ihr]

theorem createKDTreeFuel_pointList_perm :
    ∀ (fuel : Nat) (ps : List Point) (d : Nat) (R : Rect), ps.length ≤ fuel →
      (createKDTreeFuel fuel ps d R).pointList.Perm ps := by
  intro fuel
  induction fuel with
  | zero =>
    intro ps d R hlen
    match ps with
    | [] => exact List.Perm.refl _
    | p0 :: ps => simp at hlen
  | succ fuel ih =>
    intro ps d R hlen
    match ps with
    | [] => exact List.Perm.refl _
    | p0 :: ps =>
      simp only [createKDTreeFuel, Tree.pointList]
      set s := sortAxis ((d % K)) (p0 :: ps) with hsdef
      have hslen : s.length = (p0 :: ps).length := sortAxis_length _ _
      have hpos : 0 < s.length := by simp [hslen]
      have hm : s.length / 2 < s.length := Nat.div_lt_self hpos (by omega)
      have htk : (s.take (s.length / 2)).length ≤ fuel := by
        simp only [List.length_take]
        omega
      have hdr : (s.drop (s.length / 2 + 1)).length ≤ fuel := by
        simp only [List.length_drop]
        simp only [List.length_cons] at hlen hslen
        omega
      have ihl := ih (s.take (s.length / 2)) (d + 1)
        (leftChildBoundingRect (d % K) (s.getD (s.length / 2) p0) R) htk
      have ihr := ih (s.drop (s.length / 2 + 1)) (d + 1)
        (rightChildBoundingRect (d % K) (s.getD (s.length / 2) p0) R) hdr
      have hgetD : s.getD (s.length / 2) p0 = s[s.length / 2] := List.getD_eq_getElem s p0 hm
      have hsplit : s.take (s.length / 2) ++ s[s.length / 2] :: s.drop (s.length / 2 + 1) = s := by
        rw [← List.drop_eq_getElem_cons hm, List.take_append_drop]
      refine List.Perm.trans (List.Perm.cons _ (List.Perm.append ihl ihr)) ?_
      refine List.Perm.trans ?_ (sortAxis_perm (d % K) (p0 :: ps))
      rw [hgetD]
      refine List.Perm.trans List.perm_middle.symm ?_
      rw [hsplit]

theorem createKDTreeFuel_size (fuel : Nat) (ps : List Point) (d : Nat) (R : Rect)
    (hlen : ps.length ≤ fuel) : (createKDTreeFuel fuel ps d R).size = ps.length := by
  rw [← pointList_length_eq_size]
  exact (createKDTreeFuel_pointList_perm fuel ps d R hlen).length_eq

theorem createKDTreeFuel_WF :
    ∀ (fuel : Nat) (ps : List Point) (d : Nat) (R : Rect), ps.length ≤ fuel →
      (∀ p ∈ ps, inRect p R) → WF d R (createKDTreeFuel fuel ps d R) := by
  intro fuel
  induction fuel with
  | zero =>
    intro ps d R hlen _
    match ps with
    | [] => trivial
    | p0 :: ps => simp at hlen
  | succ fuel ih =>
    intro ps d R hlen hin
    match ps with
    | [] => trivial
    | p0 :: ps =>
      simp only [createKDTreeFuel]
      set s := sortAxis ((d % K)) (p0 :: ps) with hsdef
      have hslen : s.length = (p0 :: ps).length := sortAxis_length _ _
      have hpos : 0 < s.length := by simp [hslen]
      have hm : s.length / 2 < s.length := Nat.div_lt_self hpos (by omega)
      have hgetD : s.getD (s.length / 2) p0 = s[s.length / 2] := List.getD_eq_getElem s p0 hm
      have hmedmem : s.getD (s.length / 2) p0 ∈ p0 :: ps := by
        rw [hgetD]
        exact mem_sortAxis.mp (s.getElem_mem hm)
      have hmeddrop : s.getD (s.length / 2) p0 ∈ s.drop (s.length / 2) := by
        rw [hgetD, List.drop_eq_getElem_cons hm]
        exact List.mem_cons_self _ _
      have hmedtake : s.getD (s.length / 2) p0 ∈ s.take (s.length / 2 + 1) := by
        rw [hgetD]
        have hlt : s.length / 2 < (s.take (s.length / 2 + 1)).length := by
          simp only [List.length_take]
          omega
        have := List.getElem_take s (h := hlt)
        rw [← this]
        exact List.getElem_mem _
      refine ⟨rfl, hin _ hmedmem, ?_, ?_⟩
      · refine ih _ _ _ (by simp only [List.length_take]; omega) ?_
        intro x hx
        have hxs : x ∈ s := List.mem_of_mem_take hx
        have hxr : inRect x R := hin x (mem_sortAxis.mp hxs)
        have hxle : axisLe (d % K) x (s.getD (s.length / 2) p0) :=
          (sortAxis_sorted (d % K) (p0 :: ps)).rel_of_mem_take_of_mem_drop hx hmeddrop
        exact inRect_leftChild hxr hxle
      · refine ih _ _ _ ?_ ?_
        · simp only [List.length_drop]
          simp only [List.length_cons] at hlen hslen
          omega
        · intro x hx
          have hxs : x ∈ s := List.mem_of_mem_drop hx
          have hxr : inRect x R := hin x (mem_sortAxis.mp hxs)
          have hxle : axisLe (d % K) (s.getD (s.length / 2) p0) x :=
            (sortAxis_sorted (d % K) (p0 :: ps)).rel_of_mem_take_of_mem_drop hmedtake hx
          exact inRect_rightChild hxr hxle

theorem WF_pointList_inRect :
    ∀ {t : Tree} {d : Nat} {R : Rect}, WF d R t → ∀ x ∈ t.pointList, inRect x R := by
  intro t
  induction t with
  | nil => intro d R _ x hx; cases hx
  | node p rect l r ihl ihr =>
    intro d R hwf x hx
    obtain ⟨hrect, hp, hwl, hwr⟩ := hwf
    rcases List.mem_cons.mp hx with h | h
    · subst h; exact hp
    · rcases List.mem_append.mp h with h2 | h2
      · exact inRect_of_leftChild hp (ihl hwl x h2)
      · exact inRect_of_rightChild hp (ihr hwr x h2)

theorem build_WF (points : List Point) :
    WF 0 (buildBoundingRect points) (KDTree.build points) :=
  createKDTreeFuel_WF _ _ _ _ (le_refl _) (fun _ hp => mem_buildBoundingRect hp)

theorem build_pointList_perm (points : List Point) :
    (KDTree.build points).pointList.Perm points :=
  createKDTreeFuel_pointList_perm _ _ _ _ (le_refl _)

theorem build_size (points : List Point) : (KDTree.build points).size = points.length :=
  createKDTreeFuel_size _ _ _ _ (le_refl _)

end KD

namespace KD

/-! ### Facts about insertResult -/

theorem insertLoop_eq_zero_iff {l : List Entry} {d : ℚ} :
    insertLoop l d = 0 ↔ ∀ y ∈ l, ¬(y.distance < d) := by
  induction l with
  | nil => simp [insertLoop]
  | cons x xs ih =>
    simp only [insertLoop]
    by_cases hp : insertLoop xs d = 0
    · rw [if_pos hp]
      by_cases hx : x.distance < d
      · rw [if_pos hx]
        constructor
        · intro h; exact absurd h one_ne_zero
        · intro h
          exact absurd hx (h x (List.mem_cons_self _ _))
      · rw [if_neg hx]
        constructor
        · intro _
          intro y hy
          rcases List.mem_cons.mp hy with h | h
          · subst h; exact hx
          · exact (ih.mp hp) y h
        · intro _; rfl
    · rw [if_neg hp]
      constructor
      · intro h; exact absurd h (Nat.succ_ne_zero _)
      · intro h
        exact absurd (ih.mpr fun y hy => h y (List.mem_cons_of_mem _ hy)) hp

theorem insertEntry_of_none_lt {e : Entry} {xs : List Entry}
    (h : ∀ y ∈ xs, ¬(y.distance < e.distance)) : insertEntry e xs = e :: xs := by
  cases xs with
  | nil => rfl
  | cons y ys =>
    simp only [insertEntry, if_neg (h y (List.mem_cons_self _ _))]

theorem insertIdx_insertLoop_eq_insertEntry {res : List Entry} (e : Entry) (hs : SortedE res) :
    res.insertIdx (insertLoop res e.distance) e = insertEntry e res := by
  induction res with
  | nil => rfl
  | cons x xs ih =>
    have hxs : SortedE xs := (List.sorted_cons.mp hs).2
    have hx_le : ∀ b ∈ xs, x.distance ≤ b.distance := (List.sorted_cons.mp hs).1
    simp only [insertLoop]
    by_cases hp : insertLoop xs e.distance = 0
    · rw [if_pos hp]
      by_cases hx : x.distance < e.distance
      · simp only [if_pos hx]
        rw [List.insertIdx_succ_cons]
        have h0 : List.insertIdx 0 e xs = e :: xs := rfl
        rw [h0]
        simp only [insertEntry, if_pos hx]
        rw [insertEntry_of_none_lt (insertLoop_eq_zero_iff.mp hp)]
      · simp only [if_neg hx]
        show e :: x :: xs = insertEntry e (x :: xs)
        simp only [insertEntry, if_neg hx]
    · rw [if_neg hp]
      rw [List.insertIdx_succ_cons, ih hxs]
      have hex : ∃ y ∈ xs, y.distance < e.distance := by
        by_contra hc
        push_neg at hc
        exact hp (insertLoop_eq_zero_iff.mpr fun y hy => not_lt.mpr (hc y hy))
      obtain ⟨y, hy, hylt⟩ := hex
      have hxd : x.distance < e.distance := lt_of_le_of_lt (hx_le y hy) hylt
      simp only [insertEntry, if_pos hxd]

theorem insertEntry_perm (e : Entry) (l : List Entry) : (insertEntry e l).Perm (e :: l) := by
  induction l with
  | nil => exact List.Perm.refl _
  | cons x xs ih =>
    simp only [insertEntry]
    split
    · exact (ih.cons x).trans (List.Perm.swap _ _ _)
    · exact List.Perm.refl _

theorem insertEntry_length (e : Entry) (l : List Entry) :
    (insertEntry e l).length = l.length + 1 :=
  (insertEntry_perm e l).length_eq

theorem insertEntry_sorted {e : Entry} {l : List Entry} (h : SortedE l) :
    SortedE (insertEntry e l) := by
  induction l with
  | nil => simp [insertEntry, SortedE]
  | cons x xs ih =>
    have hxs : SortedE xs := (List.sorted_cons.mp h).2
    have hx_le : ∀ b ∈ xs, x.distance ≤ b.distance := (List.sorted_cons.mp h).1
    simp only [insertEntry]
    split
    · rename_i hx
      refine List.sorted_cons.mpr ⟨?_, ih hxs⟩
      intro b hb
      rcases List.mem_cons.mp ((insertEntry_perm e xs).mem_iff.mp hb) with h2 | h2
      · subst h2; exact le_of_lt hx
      · exact hx_le b h2
    · rename_i hx
      refine List.sorted_cons.mpr ⟨?_, h⟩
      intro b hb
      rcases List.mem_cons.mp hb with h2 | h2
      · subst h2; exact le_of_not_lt hx
      · exact le_trans (le_of_not_lt hx) (hx_le b h2)

theorem insertResult_eq_take {res : List Entry} {e : Entry} {k : Nat}
    (hs : SortedE res) (hlen : res.length ≤ k) :
    insertResult res e k = (insertEntry e res).take k := by
  rw [insertResult]
  simp only [insertIdx_insertLoop_eq_insertEntry e hs]
  rw [insertEntry_length]
  by_cases h : k < res.length + 1
  · rw [if_pos h]
    have hk : k = res.length := le_antisymm (by omega) hlen
    rw [List.dropLast_eq_take, insertEntry_length]
    simp only [Nat.add_sub_cancel]
    rw [hk]
  · rw [if_neg h]
    rw [List.take_of_length_le (by rw [insertEntry_length]; omega)]

end KD

namespace KD

/-! ### k-smallest selection machinery -/

theorem coe_insertEntry (e : Entry) (res : List Entry) :
    (↑(insertEntry e res) : Multiset Entry) = ↑res + {e} := by
  have h1 : (↑(insertEntry e res) : Multiset Entry) = ↑(e :: res) :=
    Multiset.coe_eq_coe.mpr (insertEntry_perm e res)
  rw [h1, ← Multiset.cons_coe, ← Multiset.singleton_add, add_comm]

theorem insertResult_sorted {res : List Entry} {e : Entry} {k : Nat}
    (hs : SortedE res) (hlen : res.length ≤ k) : SortedE (insertResult res e k) := by
  rw [insertResult_eq_take hs hlen]
  exact List.Pairwise.sublist (List.take_sublist _ _) (insertEntry_sorted hs)

theorem insertResult_length {res : List Entry} {e : Entry} {k : Nat}
    (hs : SortedE res) (hlen : res.length ≤ k) :
    (insertResult res e k).length = min (res.length + 1) k := by
  rw [insertResult_eq_take hs hlen, List.length_take, insertEntry_length]
  omega

theorem insertResult_mem {res : List Entry} {e x : Entry} {k : Nat}
    (hs : SortedE res) (hlen : res.length ≤ k) (hx : x ∈ insertResult res e k) :
    x = e ∨ x ∈ res := by
  rw [insertResult_eq_take hs hlen] at hx
  have h1 : x ∈ insertEntry e res := (List.take_sublist _ _).mem hx
  exact List.mem_cons.mp ((insertEntry_perm e res).mem_iff.mp h1)

theorem insertResult_le {res : List Entry} {e : Entry} {k : Nat}
    (hs : SortedE res) (hlen : res.length ≤ k) :
    (↑(insertResult res e k) : Multiset Entry) ≤ ↑res + {e} := by
  rw [insertResult_eq_take hs hlen, ← coe_insertEntry]
  exact Multiset.coe_le.mpr (List.take_sublist _ _).subperm

theorem insertResult_sep {res : List Entry} {e : Entry} {k : Nat}
    (hs : SortedE res) (hlen : res.length ≤ k) :
    sepM (↑(insertResult res e k)) (↑res + {e}) := by
  rw [insertResult_eq_take hs hlen]
  intro x hx f hf
  have hpool : (↑res + {e} : Multiset Entry) =
      ↑((insertEntry e res).take k) + ↑((insertEntry e res).drop k) := by
    rw [← coe_insertEntry]
    have h2 : insertEntry e res = (insertEntry e res).take k ++ (insertEntry e res).drop k :=
      (List.take_append_drop _ _).symm
    exact congrArg _ h2
  rw [hpool, add_tsub_cancel_left] at hf
  exact (insertEntry_sorted hs).rel_of_mem_take_of_mem_drop
    (Multiset.mem_coe.mp hx) (Multiset.mem_coe.mp hf)

theorem insertResult_self_mem {res : List Entry} {e : Entry} {k : Nat}
    (hs : SortedE res) (hlen : res.length ≤ k)
    (h : (insertResult res e k).length < k) : e ∈ insertResult res e k := by
  have hlt : res.length + 1 ≤ k := by
    have := @insertResult_length res e k hs hlen
    omega
  rw [insertResult_eq_take hs hlen,
    List.take_of_length_le (by rw [insertEntry_length]; omega)]
  exact (insertEntry_perm e res).mem_iff.mpr (List.mem_cons_self _ _)

theorem insertResult_distok {q : Point} {res : List Entry} {e : Entry} {k : Nat}
    (hs : SortedE res) (hlen : res.length ≤ k) (hq : DistOK q res)
    (he : e.distance = sqDistQ q e.point) : DistOK q (insertResult res e k) := by
  intro x hx
  rcases insertResult_mem hs hlen hx with h | h
  · subst h; exact he
  · exact hq x h

theorem sorted_le_getLast {l : List Entry} (hs : SortedE l) {w : Entry}
    (hw : l.getLast? = some w) : ∀ e ∈ l, e.distance ≤ w.distance := by
  induction l with
  | nil => cases hw
  | cons x xs ih =>
    cases xs with
    | nil =>
      intro e he
      rcases List.mem_cons.mp he with h | h
      · subst h
        rw [List.getLast?_singleton] at hw
        rw [Option.some_inj.mp hw]
      · cases h
    | cons y ys =>
      intro e he
      have hw2 : (y :: ys).getLast? = some w := by rwa [List.getLast?_cons_cons] at hw
      have hsxs : SortedE (y :: ys) := (List.sorted_cons.mp hs).2
      rcases List.mem_cons.mp he with h | h
      · subst h
        have hne : (y :: ys) ≠ [] := by simp
        have hwmem : w ∈ y :: ys := by
          rw [List.getLast?_eq_getLast _ hne] at hw2
          rw [← Option.some_inj.mp hw2]
          exact List.getLast_mem hne
        exact (List.sorted_cons.mp hs).1 w hwmem
      · exact ih hsxs hw2 e h

theorem sel_all {O M : Multiset Entry} {k : Nat} (hle : O ≤ M)
    (hcard : Multiset.card O = min (Multiset.card M) k) (hlt : Multiset.card O < k) :
    O = M :=
  Multiset.eq_of_le_of_card_le hle (by omega)

theorem bound_le_last {res2 : List Entry} {pool : Multiset Entry} {cur : Entry} {B : ℚ}
    {k : Nat} (hsorted : SortedE res2) (hle : (↑res2 : Multiset Entry) ≤ pool)
    (hcard : res2.length = min (Multiset.card pool) k)
    (hcur : cur ∈ pool) (hlt : res2.length < k) (hB : B ≤ cur.distance)
    {worst : Entry} (hlast : res2.getLast? = some worst) : B ≤ worst.distance := by
  have hcc : Multiset.card (↑res2 : Multiset Entry) = res2.length := Multiset.coe_card _
  have heq : (↑res2 : Multiset Entry) = pool :=
    Multiset.eq_of_le_of_card_le hle (by omega)
  have hcurres : cur ∈ res2 := by
    rw [← Multiset.mem_coe, heq]
    exact hcur
  exact le_trans hB (sorted_le_getLast hsorted hlast cur hcurres)

theorem sep_comp {O1 O2 M1 E : Multiset Entry} {k : Nat}
    (h1le : O1 ≤ M1) (h1card : Multiset.card O1 = min (Multiset.card M1) k)
    (h1sep : sepM O1 M1)
    (h2le : O2 ≤ O1 + E) (h2card : Multiset.card O2 = min (Multiset.card (O1 + E)) k)
    (h2sep : sepM O2 (O1 + E)) :
    O2 ≤ M1 + E ∧ Multiset.card O2 = min (Multiset.card (M1 + E)) k ∧ sepM O2 (M1 + E) := by
  refine ⟨le_trans h2le (add_le_add_right h1le E), ?_, ?_⟩
  · rw [Multiset.card_add] at h2card ⊢
    omega
  · intro e he f hf
    have hM : M1 + E = (M1 - O1) + (O1 + E) := by
      rw [← add_assoc, tsub_add_cancel_of_le h1le]
    have hsub : M1 + E - O2 = (M1 - O1) + ((O1 + E) - O2) := by
      rw [hM, add_tsub_assoc_of_le h2le]
    rw [hsub] at hf
    rcases Multiset.mem_add.mp hf with hf1 | hf2
    · have hO1f : ∀ x ∈ O1, Entry.distance x ≤ Entry.distance f := fun x hx => h1sep x hx f hf1
      by_cases hfull : Multiset.card M1 < k
      · have hc : Multiset.card O1 = Multiset.card M1 := by omega
        have heq : O1 = M1 := Multiset.eq_of_le_of_card_le h1le (le_of_eq hc.symm)
        rw [heq, tsub_self] at hf1
        exact absurd hf1 (Multiset.not_mem_zero f)
      · have hcard1 : Multiset.card O1 = k := by omega
        have hcard2 : Multiset.card O2 = k := by
          rw [Multiset.card_add] at h2card
          omega
        by_cases hO : O1 ≤ O2
        · have hOeq : O1 = O2 := Multiset.eq_of_le_of_card_le hO (by omega)
          rw [← hOeq] at he
          exact hO1f e he
        · have hne : O1 - O2 ≠ 0 := fun h0 => hO (tsub_eq_zero_iff_le.mp h0)
          obtain ⟨z, hz⟩ := Multiset.exists_mem_of_ne_zero hne
          have hz2 : z ∈ O1 + E - O2 :=
            Multiset.mem_of_le (tsub_le_tsub_right (Multiset.le_add_right O1 E) O2) hz
          have hez : Entry.distance e ≤ Entry.distance z := h2sep e he z hz2
          have hzO1 : z ∈ O1 := Multiset.mem_of_le tsub_le_self hz
          exact le_trans hez (hO1f z hzO1)
    · exact h2sep e he f hf2

theorem map_sub_of_le {α β : Type} [DecidableEq α] [DecidableEq β] (f : α → β)
    {X Y : Multiset α} (h : X ≤ Y) :
    (Y - X).map f = Y.map f - X.map f := by
  have h1 : Y = X + (Y - X) := (add_tsub_cancel_of_le h).symm
  have h2 : Y.map f = X.map f + (Y - X).map f := by
    rw [← Multiset.map_add, ← h1]
  rw [h2, add_tsub_cancel_left]

theorem ksel_eq_take_sort {N M : Multiset ℚ} {k : Nat} (hle : N ≤ M)
    (hcard : Multiset.card N = min (Multiset.card M) k)
    (hsep : ∀ x ∈ N, ∀ y ∈ M - N, x ≤ y) :
    N = (((M.sort (· ≤ ·)).take k : List ℚ) : Multiset ℚ) := by
  set A := N.sort (· ≤ ·) with hA
  set B := (M - N).sort (· ≤ ·) with hB
  have hsortedAB : List.Sorted (· ≤ ·) (A ++ B) := by
    rw [List.Sorted, List.pairwise_append]
    refine ⟨Multiset.sort_sorted _ _, Multiset.sort_sorted _ _, ?_⟩
    intro a ha b hb
    exact hsep a (by rw [← Multiset.mem_sort (· ≤ ·)]; exact ha)
      b (by rw [← Multiset.mem_sort (· ≤ ·)]; exact hb)
  have hcoe : (↑(A ++ B) : Multiset ℚ) = M := by
    show (↑A + ↑B : Multiset ℚ) = M
    rw [hA, hB, Multiset.sort_eq, Multiset.sort_eq, add_tsub_cancel_of_le hle]
  have hperm : (A ++ B).Perm (M.sort (· ≤ ·)) := by
    rw [← Multiset.coe_eq_coe, hcoe, Multiset.sort_eq]
  have heqlist : A ++ B = M.sort (· ≤ ·) :=
    List.eq_of_perm_of_sorted hperm hsortedAB (Multiset.sort_sorted _ _)
  have hlenA : A.length = min (Multiset.card M) k := by
    rw [hA, Multiset.length_sort, hcard]
  have htake : (M.sort (· ≤ ·)).take k = A := by
    rw [← heqlist, List.take_append_eq_append_take]
    have hAk : A.length ≤ k := by omega
    rw [List.take_of_length_le hAk]
    have hcardN : Multiset.card N + Multiset.card (M - N) = Multiset.card M := by
      have hx := congrArg Multiset.card (add_tsub_cancel_of_le hle)
      rwa [Multiset.card_add] at hx
    by_cases hk : Multiset.card M < k
    · have hB0 : B.length = 0 := by
        rw [hB, Multiset.length_sort]
        omega
      rw [List.eq_nil_of_length_eq_zero hB0]
      simp
    · have h0 : k - A.length = 0 := by omega
      rw [h0]
      simp
  rw [htake, hA, Multiset.sort_eq]

end KD

namespace KD

/-! ### Geometry of the pruning bound -/

theorem sq_between {q m x : ℚ} (h : (q ≤ m ∧ m ≤ x) ∨ (x ≤ m ∧ m ≤ q)) :
    (q - m) * (q - m) ≤ (q - x) * (q - x) := by
  rcases h with ⟨h1, h2⟩ | ⟨h1, h2⟩ <;> nlinarith

theorem clamp_sq_le {qc lo hi pc : ℚ} (h1 : lo ≤ pc) (h2 : pc ≤ hi) :
    (qc - (if qc < lo then lo else if qc > hi then hi else qc)) *
      (qc - (if qc < lo then lo else if qc > hi then hi else qc)) ≤
    (qc - pc) * (qc - pc) := by
  by_cases ha : qc < lo
  · rw [if_pos ha]
    exact sq_between (Or.inl ⟨le_of_lt ha, h1⟩)
  · rw [if_neg ha]
    by_cases hb : qc > hi
    · rw [if_pos hb]
      exact sq_between (Or.inr ⟨h2, le_of_lt hb⟩)
    · rw [if_neg hb]
      simpa using mul_self_nonneg (qc - pc)

theorem oppositeBoundSq_le_core {q p x : Point} {oppRect : Rect} {axis : Nat}
    (haxis : axis = AXIS_X ∨ axis = AXIS_Y)
    (hsx : axis = AXIS_X → (q.x ≤ p.x ∧ p.x ≤ x.x) ∨ (x.x ≤ p.x ∧ p.x ≤ q.x))
    (hsy : axis = AXIS_Y → (q.y ≤ p.y ∧ p.y ≤ x.y) ∨ (x.y ≤ p.y ∧ p.y ≤ q.y))
    (hx : inRect x oppRect) :
    oppositeBoundSq q axis p oppRect ≤ sqDistQ q x := by
  obtain ⟨hx1, hx2, hx3, hx4⟩ := hx
  rcases haxis with h | h
  · subst h
    simp only [oppositeBoundSq, if_pos rfl, getSquaredEuclidianDistance, sqDistQ]
    exact add_le_add (sq_between (hsx rfl)) (clamp_sq_le hx3 hx4)
  · subst h
    have hne : AXIS_Y ≠ AXIS_X := by decide
    simp only [oppositeBoundSq, if_neg hne, getSquaredEuclidianDistance, sqDistQ]
    exact add_le_add (clamp_sq_le hx1 hx2) (sq_between (hsy rfl))

theorem bound_le_far_right {q p x : Point} {R : Rect} {axis : Nat}
    (haxis : axis = AXIS_X ∨ axis = AXIS_Y)
    (hq : (if axis = AXIS_X then q.x else q.y) < (if axis = AXIS_X then p.x else p.y))
    (hx : inRect x (rightChildBoundingRect axis p R)) :
    oppositeBoundSq q axis p (rightChildBoundingRect axis p R) ≤ sqDistQ q x := by
  refine oppositeBoundSq_le_core haxis ?_ ?_ hx
  · intro hax
    left
    rw [hax, if_pos rfl] at hq
    refine ⟨le_of_lt hq, ?_⟩
    have := hx.1
    rw [rightChildBoundingRect, hax] at this
    simpa using this
  · intro hay
    left
    have hne : axis ≠ AXIS_X := by rw [hay]; decide
    simp only [if_neg hne] at hq
    refine ⟨le_of_lt hq, ?_⟩
    have := hx.2.2.1
    rw [rightChildBoundingRect, hay] at this
    simp only [AXIS_Y, AXIS_X] at this
    simpa using this

theorem bound_le_far_left {q p x : Point} {R : Rect} {axis : Nat}
    (haxis : axis = AXIS_X ∨ axis = AXIS_Y)
    (hq : ¬((if axis = AXIS_X then q.x else q.y) < (if axis = AXIS_X then p.x else p.y)))
    (hx : inRect x (leftChildBoundingRect axis p R)) :
    oppositeBoundSq q axis p (leftChildBoundingRect axis p R) ≤ sqDistQ q x := by
  refine oppositeBoundSq_le_core haxis ?_ ?_ hx
  · intro hax
    right
    rw [hax, if_pos rfl] at hq
    refine ⟨?_, le_of_not_lt hq⟩
    have := hx.2.1
    rw [leftChildBoundingRect, hax] at this
    simpa using this
  · intro hay
    right
    have hne : axis ≠ AXIS_X := by rw [hay]; decide
    simp only [if_neg hne] at hq
    refine ⟨?_, le_of_not_lt hq⟩
    have := hx.2.2.2
    rw [leftChildBoundingRect, hay] at this
    simp only [AXIS_Y, AXIS_X] at this
    simpa using this

theorem bound_le_node_right {q p : Point} {R : Rect} {axis : Nat}
    (haxis : axis = AXIS_X ∨ axis = AXIS_Y) (hp : inRect p R) :
    oppositeBoundSq q axis p (rightChildBoundingRect axis p R) ≤ sqDistQ q p := by
  refine oppositeBoundSq_le_core haxis ?_ ?_
    (inRect_rightChild hp (le_refl _))
  · intro _
    rcases le_total q.x p.x with h | h
    · exact Or.inl ⟨h, le_refl _⟩
    · exact Or.inr ⟨le_refl _, h⟩
  · intro _
    rcases le_total q.y p.y with h | h
    · exact Or.inl ⟨h, le_refl _⟩
    · exact Or.inr ⟨le_refl _, h⟩

theorem bound_le_node_left {q p : Point} {R : Rect} {axis : Nat}
    (haxis : axis = AXIS_X ∨ axis = AXIS_Y) (hp : inRect p R) :
    oppositeBoundSq q axis p (leftChildBoundingRect axis p R) ≤ sqDistQ q p := by
  refine oppositeBoundSq_le_core haxis ?_ ?_
    (inRect_leftChild hp (le_refl _))
  · intro _
    rcases le_total q.x p.x with h | h
    · exact Or.inl ⟨h, le_refl _⟩
    · exact Or.inr ⟨le_refl _, h⟩
  · intro _
    rcases le_total q.y p.y with h | h
    · exact Or.inl ⟨h, le_refl _⟩
    · exact Or.inr ⟨le_refl _, h⟩

/-! ### Entry multisets of subtrees -/

theorem treeEntries_nil (q : Point) : treeEntries q Tree.nil = 0 := rfl

theorem treeEntries_node (q : Point) (p : Point) (rect : Rect) (l r : Tree) :
    treeEntries q (Tree.node p rect l r) =
      {(⟨p, sqDistQ q p⟩ : Entry)} + (treeEntries q l + treeEntries q r) := by
  show ((Tree.pointList (Tree.node p rect l r)).map
      (fun x => Entry.mk x (sqDistQ q x)) : Multiset Entry) = _
  simp only [Tree.pointList, List.map_cons, List.map_append]
  rw [← Multiset.cons_coe, ← Multiset.singleton_add]
  congr 1

theorem card_treeEntries (q : Point) (t : Tree) :
    Multiset.card (treeEntries q t) = t.size := by
  simp only [treeEntries]
  rw [Multiset.coe_card, List.length_map, pointList_length_eq_size]

theorem mem_treeEntries {q : Point} {t : Tree} {f : Entry} (hf : f ∈ treeEntries q t) :
    ∃ x ∈ t.pointList, f = ⟨x, sqDistQ q x⟩ := by
  obtain ⟨x, hx, hfx⟩ := List.mem_map.mp (Multiset.mem_coe.mp hf)
  exact ⟨x, hx, hfx.symm⟩

/-! ### Step-function reification of the recursive search -/

/-- The "search target subtree" step of `getNearestNeighbours_` (lines
156–159): recurse only when the child reference is non-null. -/
def targetStep (t : Tree) (q : Point) (depth : Nat) (res : List Entry) (k : Nat)
    (vis : List Point) : Option (List Entry × List Point) :=
  match t with
  | Tree.nil => some (res, vis)
  | Tree.node _ _ _ _ => getNearestNeighboursAux t q depth res k vis

/-- The "check opposite subtree" step of `getNearestNeighbours_` (lines
161–189): when the opposite child exists, compare the perimeter bound
against the worst distance currently held and recurse only when it can
improve the results. -/
def farStep (t : Tree) (q : Point) (depth : Nat) (k : Nat) (p : Point) (axis : Nat)
    (res : List Entry) (vis : List Point) : Option (List Entry × List Point) :=
  match t with
  | Tree.nil => some (res, vis)
  | Tree.node _ oppRect _ _ =>
    match res.getLast? with
    | none => none
    | some worst =>
      if oppositeBoundSq q axis p oppRect ≤ worst.distance then
        getNearestNeighboursAux t q depth res k vis
      else some (res, vis)

theorem aux_node_eq (q p : Point) (rect : Rect) (l r : Tree) (depth : Nat)
    (res : List Entry) (k : Nat) (vis : List Point) :
    getNearestNeighboursAux (Tree.node p rect l r) q depth res k vis =
      (if (if depth % K = AXIS_X then q.x else q.y) <
          (if depth % K = AXIS_X then p.x else p.y) then
        match targetStep l q (depth + 1)
            (insertResult res ⟨p, getSquaredEuclidianDistance q.x q.y p.x p.y⟩ k) k
            (vis ++ [p]) with
        | none => none
        | some (r2, c2) => farStep r q (depth + 1) k p (depth % K) r2 c2
      else
        match targetStep r q (depth + 1)
            (insertResult res ⟨p, getSquaredEuclidianDistance q.x q.y p.x p.y⟩ k) k
            (vis ++ [p]) with
        | none => none
        | some (r2, c2) => farStep l q (depth + 1) k p (depth % K) r2 c2) := by
  cases l <;> cases r <;>
    simp only [getNearestNeighboursAux, targetStep, farStep]

end KD

namespace KD

/-- Induction-hypothesis bundle for the recursive search: on any
well-behaved incoming result list, the search of subtree `tc` at depth
`d + 1` succeeds and returns a sorted, distance-consistent selection of
the k smallest entries from the incoming list plus the subtree's
entries. -/
def MasterIH (q : Point) (k d : Nat) (tc : Tree) : Prop :=
  ∀ res vis, SortedE res → DistOK q res → res.length ≤ k → tc ≠ Tree.nil →
    ∃ out vis2, getNearestNeighboursAux tc q (d + 1) res k vis = some (out, vis2) ∧
      SortedE out ∧ DistOK q out ∧
      out.length = min (res.length + tc.size) k ∧
      (↑out : Multiset Entry) ≤ ↑res + treeEntries q tc ∧
      sepM ↑out (↑res + treeEntries q tc)

theorem comp_lists {k : Nat} {res1 out : List Entry} {M1 E : Multiset Entry}
    (h1le : (↑res1 : Multiset Entry) ≤ M1) (h1card : res1.length = min (Multiset.card M1) k)
    (h1sep : sepM (↑res1) M1)
    (h2le : (↑out : Multiset Entry) ≤ ↑res1 + E)
    (h2card : out.length = min (res1.length + Multiset.card E) k)
    (h2sep : sepM (↑out) (↑res1 + E)) :
    (↑out : Multiset Entry) ≤ M1 + E ∧
    out.length = min (Multiset.card M1 + Multiset.card E) k ∧
    sepM (↑out) (M1 + E) := by
  have h1card2 : Multiset.card (↑res1 : Multiset Entry) = min (Multiset.card M1) k := by
    rw [Multiset.coe_card]; exact h1card
  have h2card2 : Multiset.card (↑out : Multiset Entry) =
      min (Multiset.card ((↑res1 : Multiset Entry) + E)) k := by
    rw [Multiset.coe_card, Multiset.card_add, Multiset.coe_card]; exact h2card
  obtain ⟨ha, hb, hc⟩ := sep_comp h1le h1card2 h1sep h2le h2card2 h2sep
  refine ⟨ha, ?_, hc⟩
  rw [Multiset.card_add] at hb
  rw [← Multiset.coe_card (l := out)]
  exact hb

theorem targetStep_spec {q : Point} {k d : Nat} {tc : Tree} (IH : MasterIH q k d tc)
    {res : List Entry} (vis : List Point) (hs : SortedE res) (hd : DistOK q res)
    (hlen : res.length ≤ k) :
    ∃ out vis2, targetStep tc q (d + 1) res k vis = some (out, vis2) ∧
      SortedE out ∧ DistOK q out ∧
      out.length = min (res.length + tc.size) k ∧
      (↑out : Multiset Entry) ≤ ↑res + treeEntries q tc ∧
      sepM (↑out) (↑res + treeEntries q tc) := by
  cases tc with
  | nil =>
    refine ⟨res, vis, rfl, hs, hd, ?_, ?_, ?_⟩
    · show res.length = min (res.length + Tree.size Tree.nil) k
      simp only [Tree.size]
      omega
    · rw [treeEntries_nil, add_zero]
    · intro e he f hf
      rw [treeEntries_nil, add_zero, tsub_self] at hf
      exact absurd hf (Multiset.not_mem_zero f)
  | node p0 R0 l0 r0 =>
    exact IH res vis hs hd hlen (by simp)

theorem farStep_spec {q : Point} {k : Nat} {d : Nat} {p : Point} {axis : Nat}
    {oc : Tree} {oRect : Rect}
    (hwo : WF (d + 1) oRect oc) (IH : MasterIH q k d oc)
    (hbnode : oppositeBoundSq q axis p oRect ≤ sqDistQ q p)
    (hbfar : ∀ x ∈ oc.pointList, oppositeBoundSq q axis p oRect ≤ sqDistQ q x)
    {res2 : List Entry} (vis2 : List Point)
    (hs2 : SortedE res2) (hd2 : DistOK q res2) (hlen2 : res2.length ≤ k)
    (hne2 : res2 ≠ [])
    (hcur2 : res2.length < k → (⟨p, sqDistQ q p⟩ : Entry) ∈ res2) :
    ∃ out vis3, farStep oc q (d + 1) k p axis res2 vis2 = some (out, vis3) ∧
      SortedE out ∧ DistOK q out ∧
      out.length = min (res2.length + oc.size) k ∧
      (↑out : Multiset Entry) ≤ ↑res2 + treeEntries q oc ∧
      sepM (↑out) (↑res2 + treeEntries q oc) := by
  cases oc with
  | nil =>
    refine ⟨res2, vis2, rfl, hs2, hd2, ?_, ?_, ?_⟩
    · show res2.length = min (res2.length + Tree.size Tree.nil) k
      simp only [Tree.size]
      omega
    · rw [treeEntries_nil, add_zero]
    · intro e he f hf
      rw [treeEntries_nil, add_zero, tsub_self] at hf
      exact absurd hf (Multiset.not_mem_zero f)
  | node po Ro lo ro =>
    have hRo : Ro = oRect := hwo.1
    subst hRo
    obtain ⟨w, hw⟩ : ∃ w, res2.getLast? = some w :=
      ⟨res2.getLast hne2, List.getLast?_eq_getLast _ hne2⟩
    simp only [farStep, hw]
    by_cases hcond : oppositeBoundSq q axis p Ro ≤ w.distance
    · rw [if_pos hcond]
      exact IH res2 vis2 hs2 hd2 hlen2 (by simp)
    · rw [if_neg hcond]
      have hfull : res2.length = k := by
        by_contra hnef
        have hlt : res2.length < k := lt_of_le_of_ne hlen2 hnef
        exact hcond (le_trans hbnode (sorted_le_getLast hs2 hw _ (hcur2 hlt)))
      refine ⟨res2, vis2, rfl, hs2, hd2, ?_, ?_, ?_⟩
      · have hsz : 0 ≤ (Tree.node po Ro lo ro).size := Nat.zero_le _
        omega
      · exact Multiset.le_add_right _ _
      · intro e he f hf
        rw [add_tsub_cancel_left] at hf
        obtain ⟨x, hx, rfl⟩ := mem_treeEntries hf
        have h1 : Entry.distance e ≤ w.distance :=
          sorted_le_getLast hs2 hw e (Multiset.mem_coe.mp he)
        have h3 : w.distance < oppositeBoundSq q axis p Ro := lt_of_not_le hcond
        exact le_trans h1 (le_of_lt (lt_of_lt_of_le h3 (hbfar x hx)))

theorem branch_spec {q : Point} {k : Nat} {d : Nat} {p : Point} {axis : Nat}
    {tc oc : Tree} {oRect : Rect}
    (IHt : MasterIH q k d tc) (IHo : MasterIH q k d oc)
    (hwo : WF (d + 1) oRect oc)
    (hbnode : oppositeBoundSq q axis p oRect ≤ sqDistQ q p)
    (hbfar : ∀ x ∈ oc.pointList, oppositeBoundSq q axis p oRect ≤ sqDistQ q x)
    {res1 : List Entry} (vis1 : List Point)
    (hs1 : SortedE res1) (hd1 : DistOK q res1) (hlen1 : res1.length ≤ k) (hne1 : res1 ≠ [])
    (hcur1 : res1.length < k → (⟨p, sqDistQ q p⟩ : Entry) ∈ res1) :
    ∃ out vis2,
      (match targetStep tc q (d + 1) res1 k vis1 with
       | none => none
       | some (r2, c2) => farStep oc q (d + 1) k p axis r2 c2) = some (out, vis2) ∧
      SortedE out ∧ DistOK q out ∧
      out.length = min (res1.length + (tc.size + oc.size)) k ∧
      (↑out : Multiset Entry) ≤ ↑res1 + (treeEntries q tc + treeEntries q oc) ∧
      sepM (↑out) (↑res1 + (treeEntries q tc + treeEntries q oc)) := by
  obtain ⟨out2, c2, heq2, hs2, hd2, hlen2eq, hle2, hsep2⟩ := targetStep_spec IHt vis1 hs1 hd1 hlen1
  have hlen2 : out2.length ≤ k := by
    have := min_le_right (res1.length + tc.size) k
    omega
  have hne2 : out2 ≠ [] := by
    have hp1 : 1 ≤ res1.length := List.length_pos.mpr hne1
    have hp2 : 1 ≤ out2.length := by
      rw [hlen2eq]
      omega
    intro h0
    rw [h0] at hp2
    simp at hp2
  have hcardpool : Multiset.card ((↑res1 : Multiset Entry) + treeEntries q tc) =
      res1.length + tc.size := by
    rw [Multiset.card_add, Multiset.coe_card, card_treeEntries]
  have hcur2 : out2.length < k → (⟨p, sqDistQ q p⟩ : Entry) ∈ out2 := by
    intro hlt
    have heqall : (↑out2 : Multiset Entry) = ↑res1 + treeEntries q tc := by
      refine @sel_all (↑out2) (↑res1 + treeEntries q tc) k hle2 ?_ ?_
      · rw [Multiset.coe_card, hcardpool]
        exact hlen2eq
      · rw [Multiset.coe_card]
        exact hlt
    have hr1lt : res1.length < k := by
      rw [hlen2eq] at hlt
      omega
    have hcurin : (⟨p, sqDistQ q p⟩ : Entry) ∈ ((↑res1 : Multiset Entry) + treeEntries q tc) :=
      Multiset.mem_add.mpr (Or.inl (Multiset.mem_coe.mpr (hcur1 hr1lt)))
    rw [← Multiset.mem_coe, heqall]
    exact hcurin
  obtain ⟨out3, c3, heq3, hs3, hd3, hlen3eq, hle3, hsep3⟩ :=
    farStep_spec hwo IHo hbnode hbfar c2 hs2 hd2 hlen2 hne2 hcur2
  have hEcard : Multiset.card (treeEntries q oc) = oc.size := card_treeEntries q oc
  obtain ⟨hleF, hcardF, hsepF⟩ :=
    comp_lists hle2 (by rw [hcardpool]; exact hlen2eq) hsep2 hle3
      (by rw [hEcard]; exact hlen3eq) hsep3
  refine ⟨out3, c3, ?_, hs3, hd3, ?_, ?_, ?_⟩
  · rw [heq2]
    exact heq3
  · rw [hcardpool, hEcard] at hcardF
    rw [hcardF]
    omega
  · rw [← add_assoc]
    exact hleF
  · rw [← add_assoc]
    exact hsepF

end KD

namespace KD

theorem searchAux_master (q : Point) (k : Nat) (hk : 1 ≤ k) :
    ∀ (t : Tree) (d : Nat) (R : Rect), WF d R t → t ≠ Tree.nil →
      ∀ (res : List Entry) (vis : List Point),
        SortedE res → DistOK q res → res.length ≤ k →
      ∃ out vis2, getNearestNeighboursAux t q d res k vis = some (out, vis2) ∧
        SortedE out ∧ DistOK q out ∧
        out.length = min (res.length + t.size) k ∧
        (↑out : Multiset Entry) ≤ ↑res + treeEntries q t ∧
        sepM (↑out) (↑res + treeEntries q t) := by
  intro t
  induction t with
  | nil =>
    intro d R _ hne
    exact absurd rfl hne
  | node p rect l r ihl ihr =>
    intro d R hwf _ res vis hs hd hlen
    obtain ⟨hrect, hpR, hwl, hwr⟩ := hwf
    rw [aux_node_eq]
    have haxis : d % K = AXIS_X ∨ d % K = AXIS_Y := by
      show d % K = 0 ∨ d % K = 1
      show d % 2 = 0 ∨ d % 2 = 1
      omega
    have hIHl : MasterIH q k d l := by
      intro res2 vis2 hs2 hd2 hlen2 hne
      exact ihl (d + 1) (leftChildBoundingRect (d % K) p R) hwl hne res2 vis2 hs2 hd2 hlen2
    have hIHr : MasterIH q k d r := by
      intro res2 vis2 hs2 hd2 hlen2 hne
      exact ihr (d + 1) (rightChildBoundingRect (d % K) p R) hwr hne res2 vis2 hs2 hd2 hlen2
    have hcureq : (⟨p, getSquaredEuclidianDistance q.x q.y p.x p.y⟩ : Entry) =
        ⟨p, sqDistQ q p⟩ := rfl
    rw [hcureq]
    have hs1 : SortedE (insertResult res ⟨p, sqDistQ q p⟩ k) := insertResult_sorted hs hlen
    have hd1 : DistOK q (insertResult res ⟨p, sqDistQ q p⟩ k) :=
      insertResult_distok hs hlen hd rfl
    have hlen1eq : (insertResult res ⟨p, sqDistQ q p⟩ k).length = min (res.length + 1) k :=
      insertResult_length hs hlen
    have hlen1 : (insertResult res ⟨p, sqDistQ q p⟩ k).length ≤ k := by
      have := min_le_right (res.length + 1) k
      omega
    have hne1 : insertResult res ⟨p, sqDistQ q p⟩ k ≠ [] := by
      intro h0
      rw [h0] at hlen1eq
      simp only [List.length_nil] at hlen1eq
      omega
    have hcur1 : (insertResult res ⟨p, sqDistQ q p⟩ k).length < k →
        (⟨p, sqDistQ q p⟩ : Entry) ∈ insertResult res ⟨p, sqDistQ q p⟩ k :=
      fun h => insertResult_self_mem hs hlen h
    have hle1 : (↑(insertResult res ⟨p, sqDistQ q p⟩ k) : Multiset Entry) ≤
        ↑res + {⟨p, sqDistQ q p⟩} := insertResult_le hs hlen
    have hsep1 : sepM (↑(insertResult res ⟨p, sqDistQ q p⟩ k))
        ((↑res : Multiset Entry) + {⟨p, sqDistQ q p⟩}) := insertResult_sep hs hlen
    have hcard1 : (insertResult res ⟨p, sqDistQ q p⟩ k).length =
        min (Multiset.card ((↑res : Multiset Entry) + {⟨p, sqDistQ q p⟩})) k := by
      rw [Multiset.card_add, Multiset.coe_card, Multiset.card_singleton]
      exact hlen1eq
    have hpool1card : Multiset.card ((↑res : Multiset Entry) + {⟨p, sqDistQ q p⟩}) =
        res.length + 1 := by
      rw [Multiset.card_add, Multiset.coe_card, Multiset.card_singleton]
    by_cases hq : (if d % K = AXIS_X then q.x else q.y) < (if d % K = AXIS_X then p.x else p.y)
    · rw [if_pos hq]
      have hbnode : oppositeBoundSq q (d % K) p (rightChildBoundingRect (d % K) p R) ≤
          sqDistQ q p := bound_le_node_right haxis hpR
      have hbfar : ∀ x ∈ r.pointList,
          oppositeBoundSq q (d % K) p (rightChildBoundingRect (d % K) p R) ≤ sqDistQ q x :=
        fun x hx => bound_le_far_right haxis hq (WF_pointList_inRect hwr x hx)
      obtain ⟨out, vis2, heq, h1, h2, h3, h4, h5⟩ :=
        branch_spec hIHl hIHr hwr hbnode hbfar (vis ++ [p]) hs1 hd1 hlen1 hne1 hcur1
      obtain ⟨hleF, hcardF, hsepF⟩ := comp_lists hle1 hcard1 hsep1 h4
        (by rw [Multiset.card_add, card_treeEntries, card_treeEntries]; exact h3) h5
      refine ⟨out, vis2, heq, h1, h2, ?_, ?_, ?_⟩
      · rw [hcardF, hpool1card, Multiset.card_add, card_treeEntries, card_treeEntries]
        show _ = min (res.length + Tree.size (Tree.node p rect l r)) k
        simp only [Tree.size]
        omega
      · rw [treeEntries_node, ← add_assoc]
        exact hleF
      · rw [treeEntries_node, ← add_assoc]
        exact hsepF
    · rw [if_neg hq]
      have hbnode : oppositeBoundSq q (d % K) p (leftChildBoundingRect (d % K) p R) ≤
          sqDistQ q p := bound_le_node_left haxis hpR
      have hbfar : ∀ x ∈ l.pointList,
          oppositeBoundSq q (d % K) p (leftChildBoundingRect (d % K) p R) ≤ sqDistQ q x :=
        fun x hx => bound_le_far_left haxis hq (WF_pointList_inRect hwl x hx)
      obtain ⟨out, vis2, heq, h1, h2, h3, h4, h5⟩ :=
        branch_spec hIHr hIHl hwl hbnode hbfar (vis ++ [p]) hs1 hd1 hlen1 hne1 hcur1
      obtain ⟨hleF, hcardF, hsepF⟩ := comp_lists hle1 hcard1 hsep1 h4
        (by rw [Multiset.card_add, card_treeEntries, card_treeEntries]; exact h3) h5
      have hcomm : treeEntries q r + treeEntries q l = treeEntries q l + treeEntries q r :=
        add_comm _ _
      refine ⟨out, vis2, heq, h1, h2, ?_, ?_, ?_⟩
      · rw [hcardF, hpool1card, Multiset.card_add, card_treeEntries, card_treeEntries]
        show _ = min (res.length + Tree.size (Tree.node p rect l r)) k
        simp only [Tree.size]
        omega
      · rw [treeEntries_node, ← add_assoc, ← hcomm]
        exact hleF
      · rw [treeEntries_node, ← add_assoc, ← hcomm]
        exact hsepF

end KD

namespace KD

/-- Modelled from the spec: the "target subtree" step of the
spec-conditioned search (identical to `targetStep` except that it runs
the spec-conditioned recursion). -/
def specTargetStep (t : Tree) (q : Point) (depth : Nat) (res : List Entry) (k : Nat)
    (vis : List Point) : Option (List Entry × List Point) :=
  match t with
  | Tree.nil => some (res, vis)
  | Tree.node _ _ _ _ => getNearestNeighboursSpecAux t q depth res k vis

/-- Modelled from the spec: the far-child step with the spec's
condition — recurse when the result set is not yet full OR the perimeter
bound is at most the current worst distance. -/
def specFarStep (t : Tree) (q : Point) (depth : Nat) (k : Nat) (p : Point) (axis : Nat)
    (res : List Entry) (vis : List Point) : Option (List Entry × List Point) :=
  match t with
  | Tree.nil => some (res, vis)
  | Tree.node _ oppRect _ _ =>
    if res.length < k then getNearestNeighboursSpecAux t q depth res k vis
    else
      match res.getLast? with
      | none => some (res, vis)
      | some worst =>
        if oppositeBoundSq q axis p oppRect ≤ worst.distance then
          getNearestNeighboursSpecAux t q depth res k vis
        else some (res, vis)

theorem spec_aux_node_eq (q p : Point) (rect : Rect) (l r : Tree) (depth : Nat)
    (res : List Entry) (k : Nat) (vis : List Point) :
    getNearestNeighboursSpecAux (Tree.node p rect l r) q depth res k vis =
      (if (if depth % K = AXIS_X then q.x else q.y) <
          (if depth % K = AXIS_X then p.x else p.y) then
        match specTargetStep l q (depth + 1)
            (insertResult res ⟨p, getSquaredEuclidianDistance q.x q.y p.x p.y⟩ k) k
            (vis ++ [p]) with
        | none => none
        | some (r2, c2) => specFarStep r q (depth + 1) k p (depth % K) r2 c2
      else
        match specTargetStep r q (depth + 1)
            (insertResult res ⟨p, getSquaredEuclidianDistance q.x q.y p.x p.y⟩ k) k
            (vis ++ [p]) with
        | none => none
        | some (r2, c2) => specFarStep l q (depth + 1) k p (depth % K) r2 c2) := by
  cases l <;> cases r <;>
    simp only [getNearestNeighboursSpecAux, specTargetStep, specFarStep]

theorem target_out_facts {q : Point} {k : Nat} {p : Point} {res1 out2 : List Entry} {tc : Tree}
    (hk : 1 ≤ k) (hne1 : res1 ≠ []) (hcur1 : res1.length < k → (⟨p, sqDistQ q p⟩ : Entry) ∈ res1)
    (hlen2eq : out2.length = min (res1.length + tc.size) k)
    (hle2 : (↑out2 : Multiset Entry) ≤ ↑res1 + treeEntries q tc) :
    out2 ≠ [] ∧ out2.length ≤ k ∧
      (out2.length < k → (⟨p, sqDistQ q p⟩ : Entry) ∈ out2) := by
  have hp1 : 1 ≤ res1.length := List.length_pos.mpr hne1
  have hlen2 : out2.length ≤ k := by
    have := min_le_right (res1.length + tc.size) k
    omega
  refine ⟨?_, hlen2, ?_⟩
  · have hp2 : 1 ≤ out2.length := by
      rw [hlen2eq]
      omega
    intro h0
    rw [h0] at hp2
    simp at hp2
  · intro hlt
    have hcardpool : Multiset.card ((↑res1 : Multiset Entry) + treeEntries q tc) =
        res1.length + tc.size := by
      rw [Multiset.card_add, Multiset.coe_card, card_treeEntries]
    have heqall : (↑out2 : Multiset Entry) = ↑res1 + treeEntries q tc := by
      refine @sel_all (↑out2) (↑res1 + treeEntries q tc) k hle2 ?_ ?_
      · rw [Multiset.coe_card, hcardpool]
        exact hlen2eq
      · rw [Multiset.coe_card]
        exact hlt
    have hr1lt : res1.length < k := by
      rw [hlen2eq] at hlt
      omega
    have hcurin : (⟨p, sqDistQ q p⟩ : Entry) ∈ ((↑res1 : Multiset Entry) + treeEntries q tc) :=
      Multiset.mem_add.mpr (Or.inl (Multiset.mem_coe.mpr (hcur1 hr1lt)))
    rw [← Multiset.mem_coe, heqall]
    exact hcurin

theorem specAux_eq_aux (q : Point) (k : Nat) (hk : 1 ≤ k) :
    ∀ (t : Tree) (d : Nat) (R : Rect), WF d R t →
      ∀ (res : List Entry) (vis : List Point),
        SortedE res → DistOK q res → res.length ≤ k →
        getNearestNeighboursSpecAux t q d res k vis = getNearestNeighboursAux t q d res k vis := by
  intro t
  induction t with
  | nil => intro d R _ res vis _ _ _; rfl
  | node p rect l r ihl ihr =>
    intro d R hwf res vis hs hd hlen
    obtain ⟨hrect, hpR, hwl, hwr⟩ := hwf
    rw [aux_node_eq, spec_aux_node_eq]
    have haxis : d % K = AXIS_X ∨ d % K = AXIS_Y := by
      show d % K = 0 ∨ d % K = 1
      show d % 2 = 0 ∨ d % 2 = 1
      omega
    have hcureq : (⟨p, getSquaredEuclidianDistance q.x q.y p.x p.y⟩ : Entry) =
        ⟨p, sqDistQ q p⟩ := rfl
    rw [hcureq]
    have hs1 : SortedE (insertResult res ⟨p, sqDistQ q p⟩ k) := insertResult_sorted hs hlen
    have hd1 : DistOK q (insertResult res ⟨p, sqDistQ q p⟩ k) :=
      insertResult_distok hs hlen hd rfl
    have hlen1eq : (insertResult res ⟨p, sqDistQ q p⟩ k).length = min (res.length + 1) k :=
      insertResult_length hs hlen
    have hlen1 : (insertResult res ⟨p, sqDistQ q p⟩ k).length ≤ k := by
      have := min_le_right (res.length + 1) k
      omega
    have hne1 : insertResult res ⟨p, sqDistQ q p⟩ k ≠ [] := by
      intro h0
      rw [h0] at hlen1eq
      simp only [List.length_nil] at hlen1eq
      omega
    have hcur1 : (insertResult res ⟨p, sqDistQ q p⟩ k).length < k →
        (⟨p, sqDistQ q p⟩ : Entry) ∈ insertResult res ⟨p, sqDistQ q p⟩ k :=
      fun h => insertResult_self_mem hs hlen h
    have hIHl : MasterIH q k d l := by
      intro res2 vis2 hs2 hd2 hlen2 hne
      exact searchAux_master q k hk l (d + 1) (leftChildBoundingRect (d % K) p R) hwl hne
        res2 vis2 hs2 hd2 hlen2
    have hIHr : MasterIH q k d r := by
      intro res2 vis2 hs2 hd2 hlen2 hne
      exact searchAux_master q k hk r (d + 1) (rightChildBoundingRect (d % K) p R) hwr hne
        res2 vis2 hs2 hd2 hlen2
    by_cases hq : (if d % K = AXIS_X then q.x else q.y) < (if d % K = AXIS_X then p.x else p.y)
    · rw [if_pos hq, if_pos hq]
      have htseq : specTargetStep l q (d + 1) (insertResult res ⟨p, sqDistQ q p⟩ k) k
          (vis ++ [p]) = targetStep l q (d + 1) (insertResult res ⟨p, sqDistQ q p⟩ k) k
          (vis ++ [p]) := by
        cases l with
        | nil => rfl
        | node a b c e =>
          exact ihl (d + 1) (leftChildBoundingRect (d % K) p R) hwl _ _ hs1 hd1 hlen1
      rw [htseq]
      obtain ⟨out2, c2, heq2, hs2, hd2, hlen2eq, hle2, hsep2⟩ :=
        targetStep_spec hIHl (vis ++ [p]) hs1 hd1 hlen1
      rw [heq2]
      show specFarStep r q (d + 1) k p (d % K) out2 c2 = farStep r q (d + 1) k p (d % K) out2 c2
      obtain ⟨hne2, hlen2, hcur2⟩ := target_out_facts hk hne1 hcur1 hlen2eq hle2
      cases r with
      | nil => rfl
      | node po Ro lo ro =>
        have hRo : Ro = rightChildBoundingRect (d % K) p R := hwr.1
        have hbnode : oppositeBoundSq q (d % K) p Ro ≤ sqDistQ q p := by
          rw [hRo]
          exact bound_le_node_right haxis hpR
        obtain ⟨w, hw⟩ : ∃ w, out2.getLast? = some w :=
          ⟨out2.getLast hne2, List.getLast?_eq_getLast _ hne2⟩
        simp only [specFarStep, farStep, hw]
        by_cases hlt : out2.length < k
        · rw [if_pos hlt]
          have hcond : oppositeBoundSq q (d % K) p Ro ≤ w.distance :=
            le_trans hbnode (sorted_le_getLast hs2 hw _ (hcur2 hlt))
          rw [if_pos hcond]
          exact ihr (d + 1) (rightChildBoundingRect (d % K) p R) hwr _ _ hs2 hd2 hlen2
        · rw [if_neg hlt]
          by_cases hcond : oppositeBoundSq q (d % K) p Ro ≤ w.distance
          · rw [if_pos hcond, if_pos hcond]
            exact ihr (d + 1) (rightChildBoundingRect (d % K) p R) hwr _ _ hs2 hd2 hlen2
          · rw [if_neg hcond, if_neg hcond]
    · rw [if_neg hq, if_neg hq]
      have htseq : specTargetStep r q (d + 1) (insertResult res ⟨p, sqDistQ q p⟩ k) k
          (vis ++ [p]) = targetStep r q (d + 1) (insertResult res ⟨p, sqDistQ q p⟩ k) k
          (vis ++ [p]) := by
        cases r with
        | nil => rfl
        | node a b c e =>
          exact ihr (d + 1) (rightChildBoundingRect (d % K) p R) hwr _ _ hs1 hd1 hlen1
      rw [htseq]
      obtain ⟨out2, c2, heq2, hs2, hd2, hlen2eq, hle2, hsep2⟩ :=
        targetStep_spec hIHr (vis ++ [p]) hs1 hd1 hlen1
      rw [heq2]
      show specFarStep l q (d + 1) k p (d % K) out2 c2 = farStep l q (d + 1) k p (d % K) out2 c2
      obtain ⟨hne2, hlen2, hcur2⟩ := target_out_facts hk hne1 hcur1 hlen2eq hle2
      cases l with
      | nil => rfl
      | node po Ro lo ro =>
        have hRo : Ro = leftChildBoundingRect (d % K) p R := hwl.1
        have hbnode : oppositeBoundSq q (d % K) p Ro ≤ sqDistQ q p := by
          rw [hRo]
          exact bound_le_node_left haxis hpR
        obtain ⟨w, hw⟩ : ∃ w, out2.getLast? = some w :=
          ⟨out2.getLast hne2, List.getLast?_eq_getLast _ hne2⟩
        simp only [specFarStep, farStep, hw]
        by_cases hlt : out2.length < k
        · rw [if_pos hlt]
          have hcond : oppositeBoundSq q (d % K) p Ro ≤ w.distance :=
            le_trans hbnode (sorted_le_getLast hs2 hw _ (hcur2 hlt))
          rw [if_pos hcond]
          exact ihl (d + 1) (leftChildBoundingRect (d % K) p R) hwl _ _ hs2 hd2 hlen2
        · rw [if_neg hlt]
          by_cases hcond : oppositeBoundSq q (d % K) p Ro ≤ w.distance
          · rw [if_pos hcond, if_pos hcond]
            exact ihl (d + 1) (leftChildBoundingRect (d % K) p R) hwl _ _ hs2 hd2 hlen2
          · rw [if_neg hcond, if_neg hcond]

end KD

namespace KD

/-! ### Consequences for the public query operations -/

theorem build_ne_nil {P : List Point} (h : P ≠ []) : KDTree.build P ≠ Tree.nil := by
  cases P with
  | nil => exact absurd rfl h
  | cons p0 ps =>
    show createKDTreeFuel (ps.length + 1) (p0 :: ps) 0 _ ≠ Tree.nil
    simp only [createKDTreeFuel]
    intro hcontra
    exact Tree.noConfusion hcontra

theorem build_rootRect {P : List Point} (h : P ≠ []) :
    (KDTree.build P).rootRect? = some (buildBoundingRect P) := by
  cases P with
  | nil => exact absurd rfl h
  | cons p0 ps =>
    show (createKDTreeFuel (ps.length + 1) (p0 :: ps) 0 (buildBoundingRect _)).rootRect? = _
    simp only [createKDTreeFuel, Tree.rootRect?]

theorem sqDistQ_nonneg (q p : Point) : 0 ≤ sqDistQ q p := by
  simp only [sqDistQ, getSquaredEuclidianDistance]
  exact add_nonneg (mul_self_nonneg _) (mul_self_nonneg _)

theorem sqDistQ_self (p : Point) : sqDistQ p p = 0 := by
  simp [sqDistQ, getSquaredEuclidianDistance]

theorem getNearestNeighbours_eq_of_aux {t : Tree} {q : Point} {k : Nat} {out : List Entry}
    {vis : List Point} (h : getNearestNeighboursAux t q 0 [] k [] = some (out, vis)) :
    getNearestNeighbours t q k = some (out.map Entry.point) := by
  simp only [getNearestNeighbours, h]

theorem sortedE_map_dist {l : List Entry} (h : SortedE l) :
    List.Sorted (· ≤ ·) (l.map Entry.distance) := by
  rw [List.Sorted, List.pairwise_map]
  exact h

theorem sorted_map_sqDist {q : Point} {l : List Point} (h : List.Sorted (distLe q) l) :
    List.Sorted (· ≤ ·) (l.map (sqDistQ q)) := by
  rw [List.Sorted, List.pairwise_map]
  exact h

theorem map_dist_treeEntries (q : Point) (t : Tree) :
    Multiset.map Entry.distance (treeEntries q t) = (t.pointList.map (sqDistQ q) : List ℚ) := by
  simp only [treeEntries, Multiset.map_coe, List.map_map]
  congr 1

theorem kNearest_eq_linearScan (P : List Point) (q : Point) (k : Nat) (hk1 : 1 ≤ k)
    (hk2 : k ≤ P.length) (hnd : (P.map (sqDistQ q)).Nodup) :
    getNearestNeighbours (KDTree.build P) q k = some (linearScanKNearest q k P) := by
  have hPne : P ≠ [] := by
    intro h0
    rw [h0] at hk2
    simp at hk2
    omega
  obtain ⟨out, vis2, heq, hsorted, hdok, hlencard, hle, hsep⟩ :=
    searchAux_master q k hk1 (KDTree.build P) 0 (buildBoundingRect P) (build_WF P)
      (build_ne_nil hPne) [] [] List.sorted_nil (fun e he => absurd he (List.not_mem_nil e))
      (by simp)
  rw [getNearestNeighbours_eq_of_aux heq]
  have hpool : (↑out : Multiset Entry) ≤ treeEntries q (KDTree.build P) := by
    have h0 : ((↑([] : List Entry)) : Multiset Entry) = 0 := Multiset.coe_nil
    rw [h0, zero_add] at hle
    exact hle
  have hsep0 : sepM (↑out) (treeEntries q (KDTree.build P)) := by
    intro e he f hf
    refine hsep e he f ?_
    have h0 : ((↑([] : List Entry)) : Multiset Entry) = 0 := Multiset.coe_nil
    rw [h0, zero_add]
    exact hf
  have hlenout : out.length = k := by
    rw [hlencard]
    simp only [List.length_nil, zero_add, build_size]
    exact Nat.min_eq_right hk2
  have hplperm : (KDTree.build P).pointList.Perm P := build_pointList_perm P
  have hD : (Multiset.map Entry.distance (treeEntries q (KDTree.build P))) =
      ((P.map (sqDistQ q) : List ℚ) : Multiset ℚ) := by
    rw [map_dist_treeEntries]
    exact Multiset.coe_eq_coe.mpr (hplperm.map _)
  have hcardD : Multiset.card ((P.map (sqDistQ q) : List ℚ) : Multiset ℚ) = P.length := by
    rw [Multiset.coe_card, List.length_map]
  -- characterization of the distances of the search output
  have hDLle : (↑(out.map Entry.distance) : Multiset ℚ) ≤
      ((P.map (sqDistQ q) : List ℚ) : Multiset ℚ) := by
    rw [← hD, ← Multiset.map_coe]
    exact Multiset.map_le_map hpool
  have hDLcard : Multiset.card (↑(out.map Entry.distance) : Multiset ℚ) =
      min (Multiset.card ((P.map (sqDistQ q) : List ℚ) : Multiset ℚ)) k := by
    rw [Multiset.coe_card, List.length_map, hlenout, hcardD]
    omega
  have hDLsep : ∀ x ∈ (↑(out.map Entry.distance) : Multiset ℚ),
      ∀ y ∈ ((P.map (sqDistQ q) : List ℚ) : Multiset ℚ) - ↑(out.map Entry.distance), x ≤ y := by
    intro x hx y hy
    rw [← hD, ← Multiset.map_coe, ← map_sub_of_le Entry.distance hpool] at hy
    obtain ⟨f, hf, rfl⟩ := Multiset.mem_map.mp hy
    obtain ⟨e, he, rfl⟩ := Multiset.mem_map.mp (by rw [Multiset.map_coe]; exact hx)
    exact hsep0 e he f hf
  have hDL := ksel_eq_take_sort hDLle hDLcard hDLsep
  -- characterization of the distances of the linear scan
  have hSperm : (P.insertionSort (distLe q)).Perm P := List.perm_insertionSort _ _
  have hSsorted : List.Sorted (distLe q) (P.insertionSort (distLe q)) :=
    List.sorted_insertionSort _ _
  have hSlen : (P.insertionSort (distLe q)).length = P.length := hSperm.length_eq
  have hT : ((P.insertionSort (distLe q)).map (sqDistQ q) : Multiset ℚ) =
      ((P.map (sqDistQ q) : List ℚ) : Multiset ℚ) :=
    Multiset.coe_eq_coe.mpr (hSperm.map _)
  have hTsorted : List.Sorted (· ≤ ·) ((P.insertionSort (distLe q)).map (sqDistQ q)) :=
    sorted_map_sqDist hSsorted
  have hSKmap : ((P.insertionSort (distLe q)).take k).map (sqDistQ q) =
      ((P.insertionSort (distLe q)).map (sqDistQ q)).take k := List.map_take _ _ _
  have hSLle : (↑(((P.insertionSort (distLe q)).take k).map (sqDistQ q)) : Multiset ℚ) ≤
      ((P.map (sqDistQ q) : List ℚ) : Multiset ℚ) := by
    rw [hSKmap, ← hT]
    exact Multiset.coe_le.mpr (List.take_sublist _ _).subperm
  have hSLcard : Multiset.card
      (↑(((P.insertionSort (distLe q)).take k).map (sqDistQ q)) : Multiset ℚ) =
      min (Multiset.card ((P.map (sqDistQ q) : List ℚ) : Multiset ℚ)) k := by
    rw [Multiset.coe_card, List.length_map, List.length_take, hSlen, hcardD]
    omega
  have hSLsep : ∀ x ∈ (↑(((P.insertionSort (distLe q)).take k).map (sqDistQ q)) : Multiset ℚ),
      ∀ y ∈ ((P.map (sqDistQ q) : List ℚ) : Multiset ℚ) -
        ↑(((P.insertionSort (distLe q)).take k).map (sqDistQ q)), x ≤ y := by
    intro x hx y hy
    rw [hSKmap] at hx hy
    have hTsplit : ((P.map (sqDistQ q) : List ℚ) : Multiset ℚ) =
        ↑(((P.insertionSort (distLe q)).map (sqDistQ q)).take k) +
        ↑(((P.insertionSort (distLe q)).map (sqDistQ q)).drop k) := by
      rw [← hT]
      have h2 : (P.insertionSort (distLe q)).map (sqDistQ q) =
          ((P.insertionSort (distLe q)).map (sqDistQ q)).take k ++
          ((P.insertionSort (distLe q)).map (sqDistQ q)).drop k :=
        (List.take_append_drop _ _).symm
      exact congrArg _ h2
    rw [hTsplit, add_tsub_cancel_left] at hy
    exact hTsorted.rel_of_mem_take_of_mem_drop (Multiset.mem_coe.mp hx) (Multiset.mem_coe.mp hy)
  have hSL := ksel_eq_take_sort hSLle hSLcard hSLsep
  -- the two distance lists are equal
  have hperm : (out.map Entry.distance).Perm
      (((P.insertionSort (distLe q)).take k).map (sqDistQ q)) :=
    Multiset.coe_eq_coe.mp (hDL.trans hSL.symm)
  have hSKsorted : List.Sorted (· ≤ ·)
      (((P.insertionSort (distLe q)).take k).map (sqDistQ q)) := by
    rw [hSKmap]
    exact List.Pairwise.sublist (List.take_sublist _ _) hTsorted
  have hlisteq : out.map Entry.distance = ((P.insertionSort (distLe q)).take k).map (sqDistQ q) :=
    List.eq_of_perm_of_sorted hperm (sortedE_map_dist hsorted) hSKsorted
  -- now extend to the point lists
  have hSKlen : ((P.insertionSort (distLe q)).take k).length = k := by
    rw [List.length_take, hSlen]
    omega
  show some _ = some _
  congr 1
  show out.map Entry.point = (P.insertionSort (distLe q)).take k
  apply List.ext_getElem
  · rw [List.length_map, hlenout, hSKlen]
  · intro i h1 h2
    have hi1 : i < out.length := by rwa [List.length_map] at h1
    have hdi : (out.map Entry.distance)[i]? =
        ((((P.insertionSort (distLe q)).take k).map (sqDistQ q)))[i]? := by rw [hlisteq]
    rw [List.getElem?_map, List.getElem?_map, List.getElem?_eq_getElem hi1,
      List.getElem?_eq_getElem h2] at hdi
    have hdi2 : (out[i]).distance = sqDistQ q (((P.insertionSort (distLe q)).take k)[i]) :=
      Option.some_inj.mp hdi
    have hmem1 : out[i] ∈ out := List.getElem_mem _
    have hmemP1 : (out[i]).point ∈ P := by
      have hin : out[i] ∈ treeEntries q (KDTree.build P) :=
        Multiset.mem_of_le hpool (Multiset.mem_coe.mpr hmem1)
      obtain ⟨x, hx, hfx⟩ := mem_treeEntries hin
      rw [hfx]
      exact hplperm.mem_iff.mp hx
    have hmemP2 : ((P.insertionSort (distLe q)).take k)[i] ∈ P := by
      have h3 : ((P.insertionSort (distLe q)).take k)[i] ∈ (P.insertionSort (distLe q)).take k :=
        List.getElem_mem _
      exact hSperm.mem_iff.mp (List.mem_of_mem_take h3)
    have hdeq : sqDistQ q ((out[i]).point) = sqDistQ q (((P.insertionSort (distLe q)).take k)[i]) := by
      rw [← hdok _ hmem1]
      exact hdi2
    have hpteq := List.inj_on_of_nodup_map hnd hmemP1 hmemP2 hdeq
    rw [List.getElem_map]
    exact hpteq

end KD

namespace KD

theorem WF_childRectOK : ∀ {t : Tree} {d : Nat} {R : Rect}, WF d R t → ChildRectOK d t := by
  intro t
  induction t with
  | nil => intro d R _; trivial
  | node p rect l r ihl ihr =>
    intro d R hwf
    obtain ⟨hrect, hp, hwl, hwr⟩ := hwf
    show (∀ pl Rl ll rl, l = Tree.node pl Rl ll rl →
        rectContains rect Rl ∧ Rl = leftChildBoundingRect (d % K) p rect) ∧
      (∀ pr Rr lr rr, r = Tree.node pr Rr lr rr →
        rectContains rect Rr ∧ Rr = rightChildBoundingRect (d % K) p rect) ∧
      ChildRectOK (d + 1) l ∧ ChildRectOK (d + 1) r
    rw [hrect]
    refine ⟨?_, ?_, ihl hwl, ihr hwr⟩
    · intro pl Rl ll rl hleq
      subst hleq
      have h1 : Rl = leftChildBoundingRect (d % K) p R := hwl.1
      constructor
      · rw [h1]
        exact rectContains_leftChild hp
      · exact h1
    · intro pr Rr lr rr hreq
      subst hreq
      have h1 : Rr = rightChildBoundingRect (d % K) p R := hwr.1
      constructor
      · rw [h1]
        exact rectContains_rightChild hp
      · exact h1

theorem nearest_roundtrip (P : List Point) (p : Point) (hp : p ∈ P) :
    ∃ p2, getNearestNeighbour (KDTree.build P) p = some (some p2) ∧ sqDistQ p p2 = 0 := by
  have hPne : P ≠ [] := by
    intro h0
    rw [h0] at hp
    cases hp
  obtain ⟨out, vis2, heq, hsorted, hdok, hlencard, hle, hsep⟩ :=
    searchAux_master p 1 (le_refl 1) (KDTree.build P) 0 (buildBoundingRect P) (build_WF P)
      (build_ne_nil hPne) [] [] List.sorted_nil (fun e he => absurd he (List.not_mem_nil e))
      (by simp)
  have hlenout : out.length = 1 := by
    rw [hlencard]
    simp only [List.length_nil, zero_add, build_size]
    have h1 : 1 ≤ P.length := List.length_pos.mpr hPne
    omega
  obtain ⟨e, he⟩ := List.length_eq_one.mp hlenout
  have hemem : e ∈ out := by
    rw [he]
    exact List.mem_singleton_self e
  have hpool : (↑out : Multiset Entry) ≤ treeEntries p (KDTree.build P) := by
    have h0 : ((↑([] : List Entry)) : Multiset Entry) = 0 := Multiset.coe_nil
    rw [h0, zero_add] at hle
    exact hle
  have hsep0 : sepM (↑out) (treeEntries p (KDTree.build P)) := by
    intro a ha f hf
    refine hsep a ha f ?_
    have h0 : ((↑([] : List Entry)) : Multiset Entry) = 0 := Multiset.coe_nil
    rw [h0, zero_add]
    exact hf
  have hcurT : (⟨p, sqDistQ p p⟩ : Entry) ∈ treeEntries p (KDTree.build P) := by
    refine Multiset.mem_coe.mpr (List.mem_map.mpr ⟨p, ?_, rfl⟩)
    exact (build_pointList_perm P).mem_iff.mpr hp
  have hd0 : e.distance ≤ 0 := by
    by_cases hin : (⟨p, sqDistQ p p⟩ : Entry) ∈ out
    · have h2 : (⟨p, sqDistQ p p⟩ : Entry) = e := by
        rw [he] at hin
        exact List.mem_singleton.mp hin
      rw [← h2]
      show sqDistQ p p ≤ 0
      rw [sqDistQ_self]
    · have hsub : (⟨p, sqDistQ p p⟩ : Entry) ∈ treeEntries p (KDTree.build P) - ↑out := by
        rw [← Multiset.count_pos, Multiset.count_sub]
        have h1 : 0 < Multiset.count (⟨p, sqDistQ p p⟩ : Entry)
            (treeEntries p (KDTree.build P)) := Multiset.count_pos.mpr hcurT
        have h2 : Multiset.count (⟨p, sqDistQ p p⟩ : Entry) (↑out : Multiset Entry) = 0 := by
          rw [Multiset.count_eq_zero]
          intro hc
          exact hin (Multiset.mem_coe.mp hc)
        omega
      have h3 := hsep0 e (Multiset.mem_coe.mpr hemem) _ hsub
      show e.distance ≤ 0
      rw [← sqDistQ_self p]
      exact h3
  have hge : 0 ≤ e.distance := by
    rw [hdok e hemem]
    exact sqDistQ_nonneg p e.point
  have hzero : e.distance = 0 := le_antisymm hd0 hge
  refine ⟨e.point, ?_, ?_⟩
  · simp only [getNearestNeighbour, heq, he, List.head?, Option.map]
  · rw [← hdok e hemem]
    exact hzero

end KD

namespace KD

/-- Claim C1 counterexample: with tied distances the claim fails as
stated.  For P = [(3,0), (-3,0), (0,0)] and query (0,0) with k = 2 the
tree search returns {(0,0), (-3,0)} while the linear scan keeps the
first-seen of the two tied points and returns {(0,0), (3,0)}: the two
selections are not the same set. -/
theorem C1_counterexample :
    getNearestNeighbours (KDTree.build [⟨3, 0⟩, ⟨-3, 0⟩, ⟨0, 0⟩]) ⟨0, 0⟩ 2 =
      some [⟨0, 0⟩, ⟨-3, 0⟩] ∧
    linearScanKNearest ⟨0, 0⟩ 2 [⟨3, 0⟩, ⟨-3, 0⟩, ⟨0, 0⟩] = [⟨0, 0⟩, ⟨3, 0⟩] ∧
    getNearestNeighbours (KDTree.build [⟨3, 0⟩, ⟨-3, 0⟩, ⟨0, 0⟩]) ⟨0, 0⟩ 2 ≠
      some (linearScanKNearest ⟨0, 0⟩ 2 [⟨3, 0⟩, ⟨-3, 0⟩, ⟨0, 0⟩]) ∧
    (⟨3, 0⟩ : Point) ∈ linearScanKNearest ⟨0, 0⟩ 2 [⟨3, 0⟩, ⟨-3, 0⟩, ⟨0, 0⟩] ∧
    (⟨3, 0⟩ : Point) ∉ [(⟨0, 0⟩ : Point), ⟨-3, 0⟩] := by
  have h1 : getNearestNeighbours (KDTree.build [⟨3, 0⟩, ⟨-3, 0⟩, ⟨0, 0⟩]) ⟨0, 0⟩ 2 =
      some [⟨0, 0⟩, ⟨-3, 0⟩] := by
    norm_num [KDTree.build, createKDTree, createKDTreeFuel, sortAxis, List.insertionSort,
    List.orderedInsert, axisLe, axisCoord, AXIS_X, AXIS_Y, K, getNearestNeighbours,
    getNearestNeighbour, getNearestNeighboursAux, getNearestNeighboursSpecAux,
    insertResult, insertLoop, oppositeBoundSq, getSquaredEuclidianDistance,
    buildBoundingRect, leftChildBoundingRect, rightChildBoundingRect, List.insertIdx,
    distLe, sqDistQ, linearScanKNearest, min_def, max_def]
  have h2 : linearScanKNearest ⟨0, 0⟩ 2 [⟨3, 0⟩, ⟨-3, 0⟩, ⟨0, 0⟩] = [⟨0, 0⟩, ⟨3, 0⟩] := by
    norm_num [KDTree.build, createKDTree, createKDTreeFuel, sortAxis, List.insertionSort,
    List.orderedInsert, axisLe, axisCoord, AXIS_X, AXIS_Y, K, getNearestNeighbours,
    getNearestNeighbour, getNearestNeighboursAux, getNearestNeighboursSpecAux,
    insertResult, insertLoop, oppositeBoundSq, getSquaredEuclidianDistance,
    buildBoundingRect, leftChildBoundingRect, rightChildBoundingRect, List.insertIdx,
    distLe, sqDistQ, linearScanKNearest, min_def, max_def]
  refine ⟨h1, h2, ?_, ?_, ?_⟩
  · rw [h1, h2]
    norm_num
  · rw [h2]
    norm_num
  · norm_num

/-- Claim C1 (amended): provided the squared distances from the query to
the points of P are pairwise distinct, `getNearestNeighbours` on the
tree built from P with 1 ≤ k ≤ |P| returns exactly the list produced by
a linear scan selecting the k smallest distances (sorted ascending by
squared Euclidean distance). -/
theorem C1_theorem (P : List Point) (q : Point) (k : Nat) (hk1 : 1 ≤ k) (hk2 : k ≤ P.length)
    (hnd : (P.map (sqDistQ q)).Nodup) :
    getNearestNeighbours (KDTree.build P) q k = some (linearScanKNearest q k P) :=
  kNearest_eq_linearScan P q k hk1 hk2 hnd

/-- Witness for C1 at P = [(1,0), (3,0), (2,0)], query (0,0), k = 2. -/
theorem C1_witness :
    (1 ≤ 2 ∧ 2 ≤ ([⟨1, 0⟩, ⟨3, 0⟩, ⟨2, 0⟩] : List Point).length ∧
      (([⟨1, 0⟩, ⟨3, 0⟩, ⟨2, 0⟩] : List Point).map (sqDistQ ⟨0, 0⟩)).Nodup) ∧
    getNearestNeighbours (KDTree.build [⟨1, 0⟩, ⟨3, 0⟩, ⟨2, 0⟩]) ⟨0, 0⟩ 2 =
      some (linearScanKNearest ⟨0, 0⟩ 2 [⟨1, 0⟩, ⟨3, 0⟩, ⟨2, 0⟩]) :=
  ⟨⟨by decide, by decide, by norm_num [sqDistQ, getSquaredEuclidianDistance]⟩,
    C1_theorem [⟨1, 0⟩, ⟨3, 0⟩, ⟨2, 0⟩] ⟨0, 0⟩ 2 (by decide) (by decide)
      (by norm_num [sqDistQ, getSquaredEuclidianDistance])⟩

/-- Claim C2: querying the empty tree is NOT the well-defined "no
results" outcome the spec promises — `getNearestNeighbour` and
`getNearestNeighbours` on the tree built from an empty point sequence
dereference the null root (`currNode.point`) and throw a `TypeError`,
modelled here by `none`. -/
theorem C2_theorem : ∀ (q : Point) (k : Nat),
    getNearestNeighbour (KDTree.build []) q = none ∧
    getNearestNeighbours (KDTree.build []) q k = none :=
  fun _ _ => ⟨rfl, rfl⟩

/-- Claim C3: `getNearestNeighbours` with k < 1 (here k = 0) is not
reported as an `InvalidArgument` error.  On the one-point tree it
silently returns an ordinary empty result list; on a two-point tree with
the query on the empty side it throws a `TypeError` deep in the search
(reading `results[-1].distance`), modelled by `none`.  No validation of
k exists in the code. -/
theorem C3_theorem :
    getNearestNeighbours (KDTree.build [⟨0, 0⟩]) ⟨0, 0⟩ 0 = some [] ∧
    getNearestNeighbours (KDTree.build [⟨0, 0⟩, ⟨1, 0⟩]) ⟨2, 0⟩ 0 = none := by
  refine ⟨?_, ?_⟩ <;>
    norm_num [KDTree.build, createKDTree, createKDTreeFuel, sortAxis, List.insertionSort,
    List.orderedInsert, axisLe, axisCoord, AXIS_X, AXIS_Y, K, getNearestNeighbours,
    getNearestNeighbour, getNearestNeighboursAux, getNearestNeighboursSpecAux,
    insertResult, insertLoop, oppositeBoundSq, getSquaredEuclidianDistance,
    buildBoundingRect, leftChildBoundingRect, rightChildBoundingRect, List.insertIdx,
    distLe, sqDistQ, linearScanKNearest, min_def, max_def]

/-- Claim C4 counterexample: constructing a tree from [(1,0), (0,0)]
sorts the caller's array in place at the top level, leaving it
reordered as [(0,0), (1,0)]. -/
theorem C4_counterexample :
    callerArrayAfterBuild [⟨1, 0⟩, ⟨0, 0⟩] = [⟨0, 0⟩, ⟨1, 0⟩] ∧
    callerArrayAfterBuild [⟨1, 0⟩, ⟨0, 0⟩] ≠ [⟨1, 0⟩, ⟨0, 0⟩] := by
  refine ⟨?_, ?_⟩ <;>
    norm_num [callerArrayAfterBuild, sortAxis, List.insertionSort, List.orderedInsert,
      axisLe, axisCoord, AXIS_X, K]

/-- Claim C4 (amended): construction sorts the caller's input array in
place at the top recursion level, so the order of the caller's array
may change; the array always remains a permutation of the original
elements (the deeper recursive calls work on slice copies). -/
theorem C4_theorem : ∀ (P : List Point), (callerArrayAfterBuild P).Perm P := by
  intro P
  cases P with
  | nil => exact List.Perm.refl _
  | cons p0 ps => exact sortAxis_perm (0 % K) (p0 :: ps)

/-- Claim C5: on every tree produced by the constructor, the search that
recurses into the far child exactly when the clamped-query rectangle
bound is ≤ the current worst distance OR the result set is not yet full
(the spec's condition) computes the very same result and visits the very
same nodes in the same order as the code's search, whose test is only
"bound ≤ worst": whenever the result set is not full the current node's
own entry is still held, so the bound never exceeds the worst entry and
the far child is entered in that case too. -/
theorem C5_theorem : ∀ (P : List Point) (q : Point) (k : Nat), 1 ≤ k →
    getNearestNeighboursSpecAux (KDTree.build P) q 0 [] k [] =
      getNearestNeighboursAux (KDTree.build P) q 0 [] k [] :=
  fun P q k hk =>
    specAux_eq_aux q k hk (KDTree.build P) 0 (buildBoundingRect P) (build_WF P) [] []
      List.sorted_nil (fun e he => absurd he (List.not_mem_nil e)) (by simp)

/-- Witness for C5 at P = [(3,0), (-3,0), (0,0)], query (1,0), k = 2. -/
theorem C5_witness :
    1 ≤ 2 ∧
    getNearestNeighboursSpecAux (KDTree.build [⟨3, 0⟩, ⟨-3, 0⟩, ⟨0, 0⟩]) ⟨1, 0⟩ 0 [] 2 [] =
      getNearestNeighboursAux (KDTree.build [⟨3, 0⟩, ⟨-3, 0⟩, ⟨0, 0⟩]) ⟨1, 0⟩ 0 [] 2 [] :=
  ⟨by decide, C5_theorem [⟨3, 0⟩, ⟨-3, 0⟩, ⟨0, 0⟩] ⟨1, 0⟩ 2 (by decide)⟩

/-- Claim C6 counterexample: on a distance tie the code places the new
entry BEFORE the existing equal-distance entry (its backward scan stops
only at a strictly smaller distance), while the claim's rule ("after the
first entry with distance ≤ the new one") places it after. -/
theorem C6_counterexample :
    insertResult [⟨⟨0, 0⟩, 5⟩] ⟨⟨1, 0⟩, 5⟩ 2 = [⟨⟨1, 0⟩, 5⟩, ⟨⟨0, 0⟩, 5⟩] ∧
    specInsertResult [⟨⟨0, 0⟩, 5⟩] ⟨⟨1, 0⟩, 5⟩ 2 = [⟨⟨0, 0⟩, 5⟩, ⟨⟨1, 0⟩, 5⟩] ∧
    insertResult [⟨⟨0, 0⟩, 5⟩] ⟨⟨1, 0⟩, 5⟩ 2 ≠ specInsertResult [⟨⟨0, 0⟩, 5⟩] ⟨⟨1, 0⟩, 5⟩ 2 := by
  refine ⟨?_, ?_, ?_⟩ <;>
    norm_num [insertResult, insertLoop, List.insertIdx, specInsertResult, insertEntrySpec]

/-- Claim C6 (amended): on a sorted result list of length ≤ k,
`insertResult_` places the new entry immediately after the last existing
entry whose distance is STRICTLY LESS than the new entry's distance
(i.e. before any tied entries) — equivalently it equals the sorted
insertion `insertEntry` truncated to k — and afterwards the list is
again sorted ascending with length min(len+1, k) ≤ k. -/
theorem C6_theorem : ∀ (res : List Entry) (e : Entry) (k : Nat),
    SortedE res → res.length ≤ k →
    insertResult res e k = (insertEntry e res).take k ∧
    SortedE (insertResult res e k) ∧
    (insertResult res e k).length = min (res.length + 1) k ∧
    (insertResult res e k).length ≤ k := by
  intro res e k hs hlen
  refine ⟨insertResult_eq_take hs hlen, insertResult_sorted hs hlen,
    insertResult_length hs hlen, ?_⟩
  have h1 := @insertResult_length res e k hs hlen
  have h2 := min_le_right (res.length + 1) k
  omega

/-- Witness for C6 at res = [(point (0,0), 1)], e = (point (2,0), 4), k = 1. -/
theorem C6_witness :
    (SortedE [⟨⟨0, 0⟩, 1⟩] ∧ ([(⟨⟨0, 0⟩, 1⟩ : Entry)]).length ≤ 1) ∧
    (insertResult [⟨⟨0, 0⟩, 1⟩] ⟨⟨2, 0⟩, 4⟩ 1 = (insertEntry ⟨⟨2, 0⟩, 4⟩ [⟨⟨0, 0⟩, 1⟩]).take 1 ∧
     SortedE (insertResult [⟨⟨0, 0⟩, 1⟩] ⟨⟨2, 0⟩, 4⟩ 1) ∧
     (insertResult [⟨⟨0, 0⟩, 1⟩] ⟨⟨2, 0⟩, 4⟩ 1).length = min (([(⟨⟨0, 0⟩, 1⟩ : Entry)]).length + 1) 1 ∧
     (insertResult [⟨⟨0, 0⟩, 1⟩] ⟨⟨2, 0⟩, 4⟩ 1).length ≤ 1) :=
  ⟨⟨by simp [SortedE], by decide⟩,
    C6_theorem [⟨⟨0, 0⟩, 1⟩] ⟨⟨2, 0⟩, 4⟩ 1 (by simp [SortedE]) (by decide)⟩

/-- Claim C7 counterexample: the constructor initialises the bounding
rectangle from the sentinels ±2^31, so for the single point
(2^31, 0) the root rectangle's minX is 2^31 − 1, NOT the per-axis
minimum 2^31 of the input. -/
theorem C7_counterexample :
    (KDTree.build [⟨2 ^ 31, 0⟩]).rootRect? =
      some ⟨2 ^ 31 - 1, 2 ^ 31, 0, 0⟩ ∧
    ((2 : ℚ) ^ 31 - 1) ≠ (2 : ℚ) ^ 31 ∧
    ((2 : ℚ) ^ 31 - 1) ∉ ([⟨2 ^ 31, 0⟩] : List Point).map Point.x := by
  refine ⟨?_, ?_, ?_⟩ <;>
    norm_num [KDTree.build, createKDTree, createKDTreeFuel, Tree.rootRect?,
      buildBoundingRect, sortAxis, List.insertionSort, List.orderedInsert, axisLe,
      axisCoord, AXIS_X, AXIS_Y, K, min_def, max_def]

/-- Claim C7 (amended): provided every input coordinate lies within the
sentinel range [−2^31, 2^31 − 1], the rectangle stored at the root of
the built tree is the bounding rectangle of the input points: each of
its four bounds is attained by some input point and bounds all of
them. -/
theorem C7_theorem (P : List Point) (hne : P ≠ [])
    (hbound : ∀ p ∈ P, -(2 ^ 31) ≤ p.x ∧ p.x ≤ 2 ^ 31 - 1 ∧
      -(2 ^ 31) ≤ p.y ∧ p.y ≤ 2 ^ 31 - 1) :
    ∃ R, (KDTree.build P).rootRect? = some R ∧
      (R.minX ∈ P.map Point.x ∧ ∀ p ∈ P, R.minX ≤ p.x) ∧
      (R.maxX ∈ P.map Point.x ∧ ∀ p ∈ P, p.x ≤ R.maxX) ∧
      (R.minY ∈ P.map Point.y ∧ ∀ p ∈ P, R.minY ≤ p.y) ∧
      (R.maxY ∈ P.map Point.y ∧ ∀ p ∈ P, p.y ≤ R.maxY) := by
  refine ⟨buildBoundingRect P, build_rootRect hne, ⟨?_, ?_⟩, ⟨?_, ?_⟩, ⟨?_, ?_⟩, ⟨?_, ?_⟩⟩
  · rw [buildBoundingRect_minX]
    exact foldl_min_proj_char Point.x _ (fun p hp => (hbound p hp).2.1) hne
  · intro p hp
    rw [buildBoundingRect_minX]
    exact foldl_min_proj_le_mem Point.x hp _
  · rw [buildBoundingRect_maxX]
    exact foldl_max_proj_char Point.x _ (fun p hp => (hbound p hp).1) hne
  · intro p hp
    rw [buildBoundingRect_maxX]
    exact foldl_max_proj_ge_mem Point.x hp _
  · rw [buildBoundingRect_minY]
    exact foldl_min_proj_char Point.y _ (fun p hp => (hbound p hp).2.2.2) hne
  · intro p hp
    rw [buildBoundingRect_minY]
    exact foldl_min_proj_le_mem Point.y hp _
  · rw [buildBoundingRect_maxY]
    exact foldl_max_proj_char Point.y _ (fun p hp => (hbound p hp).2.2.1) hne
  · intro p hp
    rw [buildBoundingRect_maxY]
    exact foldl_max_proj_ge_mem Point.y hp _

/-- Witness for C7 at P = [(0,0), (1,2)]. -/
theorem C7_witness :
    (([⟨0, 0⟩, ⟨1, 2⟩] : List Point) ≠ [] ∧
      ∀ p ∈ ([⟨0, 0⟩, ⟨1, 2⟩] : List Point), -(2 ^ 31) ≤ p.x ∧ p.x ≤ 2 ^ 31 - 1 ∧
        -(2 ^ 31) ≤ p.y ∧ p.y ≤ 2 ^ 31 - 1) ∧
    (∃ R, (KDTree.build [⟨0, 0⟩, ⟨1, 2⟩]).rootRect? = some R ∧
      (R.minX ∈ ([⟨0, 0⟩, ⟨1, 2⟩] : List Point).map Point.x ∧
        ∀ p ∈ ([⟨0, 0⟩, ⟨1, 2⟩] : List Point), R.minX ≤ p.x) ∧
      (R.maxX ∈ ([⟨0, 0⟩, ⟨1, 2⟩] : List Point).map Point.x ∧
        ∀ p ∈ ([⟨0, 0⟩, ⟨1, 2⟩] : List Point), p.x ≤ R.maxX) ∧
      (R.minY ∈ ([⟨0, 0⟩, ⟨1, 2⟩] : List Point).map Point.y ∧
        ∀ p ∈ ([⟨0, 0⟩, ⟨1, 2⟩] : List Point), R.minY ≤ p.y) ∧
      (R.maxY ∈ ([⟨0, 0⟩, ⟨1, 2⟩] : List Point).map Point.y ∧
        ∀ p ∈ ([⟨0, 0⟩, ⟨1, 2⟩] : List Point), p.y ≤ R.maxY)) :=
  ⟨⟨by simp, by norm_num⟩, C7_theorem [⟨0, 0⟩, ⟨1, 2⟩] (by simp) (by norm_num)⟩

/-- Claim C8: in every tree produced by construction, each existing
child's stored rectangle is contained in its parent's stored rectangle
(all four bound comparisons) and equals the parent's rectangle clipped
on the parent's splitting axis (depth mod 2) at the parent point's
coordinate. -/
theorem C8_theorem : ∀ (P : List Point), ChildRectOK 0 (KDTree.build P) :=
  fun P => WF_childRectOK (build_WF P)

/-- Claim C9: for every point p of a non-empty input P, querying the
built tree at p returns a point at squared distance 0 from p (p itself
or a coordinate duplicate). -/
theorem C9_theorem (P : List Point) (p : Point) (hp : p ∈ P) :
    ∃ p2, getNearestNeighbour (KDTree.build P) p = some (some p2) ∧ sqDistQ p p2 = 0 :=
  nearest_roundtrip P p hp

/-- Witness for C9 at P = [(0,0), (1,0), (2,0)], p = (1,0). -/
theorem C9_witness :
    (⟨1, 0⟩ : Point) ∈ ([⟨0, 0⟩, ⟨1, 0⟩, ⟨2, 0⟩] : List Point) ∧
    (∃ p2, getNearestNeighbour (KDTree.build [⟨0, 0⟩, ⟨1, 0⟩, ⟨2, 0⟩]) ⟨1, 0⟩ =
        some (some p2) ∧ sqDistQ ⟨1, 0⟩ p2 = 0) :=
  ⟨by norm_num, C9_theorem [⟨0, 0⟩, ⟨1, 0⟩, ⟨2, 0⟩] ⟨1, 0⟩ (by norm_num)⟩

/-- Claim C10: construction terminates — both recursive build calls
receive strictly shorter lists than their caller (the slice before the
median index and the slice after it, the median itself excluded), so the
recursion is well-founded on list length; consequently the built tree
holds exactly one node per input point. -/
theorem C10_theorem : ∀ (ps : List Point) (axis : Nat), ps ≠ [] →
    ((sortAxis axis ps).take ((sortAxis axis ps).length / 2)).length < ps.length ∧
    ((sortAxis axis ps).drop ((sortAxis axis ps).length / 2 + 1)).length < ps.length ∧
    ∀ (d : Nat) (R : Rect), (createKDTree ps d R).size = ps.length := by
  intro ps axis hne
  have hlen : (sortAxis axis ps).length = ps.length := sortAxis_length axis ps
  have hpos : 0 < ps.length := List.length_pos.mpr hne
  refine ⟨?_, ?_, ?_⟩
  · rw [List.length_take, hlen]
    omega
  · rw [List.length_drop, hlen]
    omega
  · intro d R
    exact createKDTreeFuel_size ps.length ps d R (le_refl _)

/-- Witness for C10 at ps = [(0,0), (1,0)], axis = 0. -/
theorem C10_witness :
    ([⟨0, 0⟩, ⟨1, 0⟩] : List Point) ≠ [] ∧
    (((sortAxis 0 [⟨0, 0⟩, ⟨1, 0⟩]).take ((sortAxis 0 [⟨0, 0⟩, ⟨1, 0⟩]).length / 2)).length <
        ([⟨0, 0⟩, ⟨1, 0⟩] : List Point).length ∧
      ((sortAxis 0 [⟨0, 0⟩, ⟨1, 0⟩]).drop
          ((sortAxis 0 [⟨0, 0⟩, ⟨1, 0⟩]).length / 2 + 1)).length <
        ([⟨0, 0⟩, ⟨1, 0⟩] : List Point).length ∧
      ∀ (d : Nat) (R : Rect),
        (createKDTree [⟨0, 0⟩, ⟨1, 0⟩] d R).size = ([⟨0, 0⟩, ⟨1, 0⟩] : List Point).length) :=
  ⟨by simp, C10_theorem [⟨0, 0⟩, ⟨1, 0⟩] 0 (by simp)⟩

end KD
